import Mathlib

/-!
Shallow embedding of `src/lib.rs` of the vgraph repository, and verification of
the frozen claims about its specification.

The Rust code is generic over a `VGraph` trait (an `out_edges` successor function
and a `dist` edge-cost function).  Hash maps are modelled as association lists
with overwriting insert, the `VecDeque` of `breadth_first_search` as a list used
FIFO, and the `PriorityQueue` of `a_star_search` as an association list from
which `pop` removes the entry with the least priority value (the Rust queue
stores `Reverse` priorities, so its maximal entry is the least distance).  The
unbounded `while` loops of the source become fuelled recursions: a result of
`none` means the fuel ran out before the loop finished, so "the call terminates
with result r" is rendered as "for some fuel the fuelled function returns r".
-/

namespace Vg

/-- Embeds the Rust trait `VGraph` (lib.rs lines 9-18): a graph given by a
successor enumeration `out_edges` and an edge cost function `dist`. -/
structure VGraph (N : Type) (D : Type) where
  out_edges : N → List N
  dist : N → N → D

variable {N : Type} [DecidableEq N]

/-- Lookup in an association list; models `HashMap::get`. -/
def alookup {A : Type} : List (N × A) → N → Option A
  | [], _ => none
  | (k, v) :: rest, key => if k = key then some v else alookup rest key

/-- Remove every binding of a key from an association list. -/
def aerase {A : Type} (key : N) : List (N × A) → List (N × A)
  | [] => []
  | p :: rest => if p.1 = key then aerase key rest else p :: aerase key rest

/-- Insert with overwrite; models `HashMap::insert`.  The old binding of the
key, if any, is removed, so keys stay unique. -/
def ainsert {A : Type} (m : List (N × A)) (key : N) (v : A) : List (N × A) :=
  (key, v) :: aerase key m

/-- Key set of an association list. -/
def akeys {A : Type} (m : List (N × A)) : Finset N :=
  (m.map Prod.fst).toFinset

/-- Outcome of the `breadth_first_search` main loop: either the goal was popped,
with the predecessor map at that moment (the code then calls `back_track`), or
the queue ran empty. -/
inductive BfsOut (N : Type) where
  | found : List (N × N) → N → BfsOut N
  | notFound : BfsOut N
deriving DecidableEq

/-- Neighbor processing of one `breadth_first_search` iteration (lib.rs lines
34-40): each successor that is not yet a key of `prev` is recorded with
predecessor `cur` and pushed on the back of the queue. -/
def bfsRelax (cur : N) : List N → List (N × N) → List N → List (N × N) × List N
  | [], prev, queue => (prev, queue)
  | nxt :: rest, prev, queue =>
    match alookup prev nxt with
    | some _ => bfsRelax cur rest prev queue
    | none => bfsRelax cur rest (ainsert prev nxt cur) (queue ++ [nxt])

/-- Fuelled main loop of `breadth_first_search` (lib.rs lines 29-41). -/
def bfsLoop {D : Type} (g : VGraph N D) (goal : N) :
    Nat → List N → List (N × N) → Option (BfsOut N)
  | 0, _, _ => none
  | fuel + 1, queue, prev =>
    match queue with
    | [] => some BfsOut.notFound
    | cur :: rest =>
      if cur = goal then some (BfsOut.found prev goal)
      else
        let pr := bfsRelax cur (g.out_edges cur) prev rest
        bfsLoop g goal fuel pr.2 pr.1

/-- Fuelled walk of `back_track` (lib.rs lines 113-124), written with an
accumulator so that the final list is already reversed: starting from `end`,
follow the `prev` map until a node has no entry.  `none` means the fuel ran out
while the walk was still inside the map. -/
def backTrackGo (prev : List (N × N)) : Nat → N → List N → Option (List N)
  | 0, cur, acc =>
    match alookup prev cur with
    | none => some (cur :: acc)
    | some _ => none
  | fuel + 1, cur, acc =>
    match alookup prev cur with
    | none => some (cur :: acc)
    | some nxt => backTrackGo prev fuel nxt (cur :: acc)

/-- Embeds `back_track` (lib.rs lines 113-124), fuelled. -/
def back_track (fuel : Nat) (prev : List (N × N)) (last : N) : Option (List N) :=
  backTrackGo prev fuel last []

/-- Embeds `breadth_first_search` (lib.rs lines 20-44).  The result is
`some r` when the search terminates within the given fuels with result `r`
(`r = none` is the Rust `None`), and `none` when fuel ran out, i.e. on the
fuelled approximation of non-termination. -/
def breadth_first_search {D : Type} (g : VGraph N D) (start goal : N)
    (fuel btFuel : Nat) : Option (Option (List N)) :=
  match bfsLoop g goal fuel [start] [] with
  | none => none
  | some BfsOut.notFound => some none
  | some (BfsOut.found prev e) => (back_track btFuel prev e).map some

/-- First entry with the least priority value; models popping the entry with the
greatest `Reverse` priority from the Rust `PriorityQueue` (ties are broken
arbitrarily there; this model keeps the first such entry). -/
def qBest {D : Type} [LinearOrder D] : List (N × D) → Option (N × D)
  | [] => none
  | x :: rest =>
    match qBest rest with
    | none => some x
    | some b => if b.2 < x.2 then some b else some x

/-- Pop the least-priority entry from the queue; models `PriorityQueue::pop`. -/
def qPop {D : Type} [LinearOrder D] (q : List (N × D)) :
    Option ((N × D) × List (N × D)) :=
  match qBest q with
  | none => none
  | some b => some (b, aerase b.1 q)

/-- Models `PriorityQueue::push_increase`: insert the item if absent, otherwise
raise its priority if the new one is greater — for `Reverse` priorities,
replace the stored distance exactly when the new distance is smaller. -/
def push_increase {D : Type} [LinearOrder D] (q : List (N × D)) (key : N) (p : D) :
    List (N × D) :=
  match alookup q key with
  | none => q ++ [(key, p)]
  | some pOld =>
    if p < pOld then q.map (fun e => if e.1 = key then (key, p) else e) else q

/-- The transient state of `a_star_search`, named after the Rust locals:
the priority queue `to_explore`, the predecessor map `prev` and the map
`dist_from_start` of best known distances. -/
structure AState (N D : Type) where
  to_explore : List (N × D)
  prev : List (N × N)
  dist_from_start : List (N × D)

/-- Neighbor processing of one `a_star_search` iteration (lib.rs lines 65-86).
A result of `none` models the panic of the `expect` on line 68 (the popped node
has no entry in `dist_from_start`). -/
def aRelax {D : Type} [LinearOrder D] [Add D] (g : VGraph N D) (h : N → D)
    (cur : N) : List N → AState N D → Option (AState N D)
  | [], st => some st
  | nxt :: rest, st =>
    match alookup st.dist_from_start cur with
    | none => none
    | some curD =>
      let s2n := curD + g.dist cur nxt
      let hd := s2n + h nxt
      let cont : Bool :=
        match alookup st.dist_from_start nxt with
        | some best => decide (best ≤ s2n)
        | none => false
      if cont then aRelax g h cur rest st
      else
        let q2 := push_increase st.to_explore nxt hd
        let upd : Bool :=
          match alookup st.dist_from_start nxt with
          | some best => decide (s2n < best)
          | none => true
        if upd then
          aRelax g h cur rest
            { to_explore := q2, prev := ainsert st.prev nxt cur,
              dist_from_start := ainsert st.dist_from_start nxt s2n }
        else aRelax g h cur rest { st with to_explore := q2 }

/-- Outcome of the `a_star_search` main loop. `expectFail` is the panic of the
`expect` on line 68 of lib.rs. -/
inductive AOut (N : Type) where
  | found : List (N × N) → N → AOut N
  | notFound : AOut N
  | expectFail : AOut N
deriving DecidableEq

/-- One iteration of the `a_star_search` loop: either the loop halts with an
outcome, or it continues with a new state. -/
inductive StepRes (N D : Type) where
  | halt : AOut N → StepRes N D
  | next : AState N D → StepRes N D

/-- One iteration of the `a_star_search` main loop (lib.rs lines 60-87). -/
def aStep {D : Type} [LinearOrder D] [Add D] (g : VGraph N D) (isEnd : N → Bool)
    (h : N → D) (st : AState N D) : StepRes N D :=
  match qPop st.to_explore with
  | none => StepRes.halt AOut.notFound
  | some (cp, q2) =>
    if isEnd cp.1 then StepRes.halt (AOut.found st.prev cp.1)
    else
      match aRelax g h cp.1 (g.out_edges cp.1) { st with to_explore := q2 } with
      | none => StepRes.halt AOut.expectFail
      | some st2 => StepRes.next st2

/-- Fuelled main loop of `a_star_search`. -/
def aLoop {D : Type} [LinearOrder D] [Add D] (g : VGraph N D) (isEnd : N → Bool)
    (h : N → D) : Nat → AState N D → Option (AOut N)
  | 0, _ => none
  | fuel + 1, st =>
    match aStep g isEnd h st with
    | StepRes.halt r => some r
    | StepRes.next st2 => aLoop g isEnd h fuel st2

/-- State trace of the `a_star_search` loop: iterate `aStep`, staying put once
the loop has halted. -/
def aIter {D : Type} [LinearOrder D] [Add D] (g : VGraph N D) (isEnd : N → Bool)
    (h : N → D) : Nat → AState N D → AState N D
  | 0, st => st
  | fuel + 1, st =>
    match aStep g isEnd h st with
    | StepRes.halt _ => st
    | StepRes.next st2 => aIter g isEnd h fuel st2

/-- One application of `aStep` as a state transformer: states that halt the
loop stay put. -/
def aStepF {D : Type} [LinearOrder D] [Add D] (g : VGraph N D) (isEnd : N → Bool)
    (h : N → D) (st : AState N D) : AState N D :=
  match aStep g isEnd h st with
  | StepRes.halt _ => st
  | StepRes.next st2 => st2

/-- Initial state of `a_star_search` (lib.rs lines 54-59). -/
def aInit {D : Type} [LinearOrder D] [Add D] [Zero D] (start : N) (h : N → D) :
    AState N D :=
  { to_explore := push_increase [] start (h start),
    prev := [],
    dist_from_start := ainsert [] start 0 }

/-- Every node in the open set already has an entry in `dist_from_start`: the
invariant protecting the `expect` on line 68 of lib.rs. -/
def QCov {D : Type} (st : AState N D) : Prop :=
  ∀ e ∈ st.to_explore, (alookup st.dist_from_start e.1).isSome = true

/-- Embeds `a_star_search` (lib.rs lines 46-91), fuelled like
`breadth_first_search`; a panic of the internal `expect` is also mapped to
`none` (the call does not return a value). -/
def a_star_search {D : Type} [LinearOrder D] [Add D] [Zero D] (g : VGraph N D)
    (start : N) (isEnd : N → Bool) (h : N → D) (fuel btFuel : Nat) :
    Option (Option (List N)) :=
  match aLoop g isEnd h fuel (aInit start h) with
  | none => none
  | some AOut.notFound => some none
  | some AOut.expectFail => none
  | some (AOut.found prev e) => (back_track btFuel prev e).map some

/-- The consecutive windows of width two of a list; models
`slice::windows(2)`. -/
def windows2 {A : Type} : List A → List (A × A)
  | a :: b :: rest => (a, b) :: windows2 (b :: rest)
  | _ => []

/-- Embeds `path_length` (lib.rs lines 93-109): fold the edge costs of the
consecutive pairs of the path, starting from zero. -/
def path_length {D : Type} [Zero D] [Add D] (g : VGraph N D) (path : List N) : D :=
  (windows2 path).foldl (fun acc p => acc + g.dist p.1 p.2) 0

/-- Sum of the stored distances of a map; part of the A* termination measure. -/
def dsum (m : List (N × ℕ)) : ℕ := (m.map Prod.snd).sum

/-- Termination measure of the BFS loop over a finite closed node set `R`:
every iteration pops one queue entry, and every push is paid for by a fresh
key entering the predecessor map. -/
def bfsMeasure (R : Finset N) (queue : List N) (prev : List (N × N)) : ℕ :=
  2 * (R \ akeys prev).card + queue.length

/-- Well-formedness of an A* state over a finite closed node set `R`: open-set
nodes and distance-map keys lie in `R`, the open set is covered by the distance
map, and the distance map binds each key once. -/
def AWf (R : Finset N) (st : AState N ℕ) : Prop :=
  (∀ e ∈ st.to_explore, e.1 ∈ R) ∧ akeys st.dist_from_start ⊆ R ∧
  QCov st ∧ (st.dist_from_start.map Prod.fst).Nodup

/-- Strict decrease of the first two components of the A* termination measure:
either a fresh key entered the distance map, or the key set is unchanged and
the total of the stored distances strictly dropped. -/
def TwoLt (R : Finset N) (a b : AState N ℕ) : Prop :=
  (R \ akeys a.dist_from_start).card < (R \ akeys b.dist_from_start).card ∨
  ((R \ akeys a.dist_from_start).card = (R \ akeys b.dist_from_start).card ∧
    dsum a.dist_from_start < dsum b.dist_from_start)

/-- Reachability of `v` from `s` by a walk of total cost `c`. -/
inductive Reach {D : Type} [Add D] [Zero D] (g : VGraph N D) (s : N) : N → D → Prop where
  | refl : Reach g s s 0
  | step {u c v} : Reach g s u c → v ∈ g.out_edges u → Reach g s v (c + g.dist u v)

/-- Minimality of a reach cost: `c` is the least total cost of a walk from
`s` to `v`. -/
def IsMinReach (g : VGraph N ℕ) (s v : N) (c : ℕ) : Prop :=
  Reach g s v c ∧ ∀ c2, Reach g s v c2 → c ≤ c2

/-- The ghost-augmented invariant of the `a_star_search` loop, for
natural-number distances.  `S` is the set of nodes already popped, settled and fully relaxed, and `P`
additionally contains a node currently being relaxed (`S = P` between
iterations; nodes of `P` are exempt from the open-set coverage `inPQ`);
`τ` records the relative order in which predecessor entries were written, and
`T` bounds every written `τ` value.  The fields:
distance-map entries are costs of actual walks (`reach`); every open-set entry
carries priority `g + h` of its node (`prio`); the start keeps distance zero
(`start0`); settled nodes hold minimal distances (`settled`) and all their
out-edges are relaxed (`relaxed`); every discovered node is settled or open
(`inPQ`); settled nodes fail the goal test (`notGoal`); every predecessor
entry is a real edge whose stored distances telescope, strictly or with
increasing write order (`prevLink`); the predecessor map binds exactly the
discovered nodes other than the start (`prevKeys`); and written orders stay
below `T` (`tauBound`). -/
structure AInv (g : VGraph N ℕ) (start : N) (isEnd : N → Bool) (h : N → ℕ)
    (S P : Finset N) (τ : N → ℕ) (T : ℕ) (st : AState N ℕ) : Prop where
  reach : ∀ v c, alookup st.dist_from_start v = some c → Reach g start v c
  prio : ∀ e ∈ st.to_explore, ∃ cv, alookup st.dist_from_start e.1 = some cv ∧
    e.2 = cv + h e.1
  start0 : alookup st.dist_from_start start = some 0
  settled : ∀ v ∈ S, ∃ cv, alookup st.dist_from_start v = some cv ∧
    ∀ c2, Reach g start v c2 → cv ≤ c2
  relaxed : ∀ v ∈ S, ∀ cv, alookup st.dist_from_start v = some cv →
    ∀ w ∈ g.out_edges v, ∃ cw, alookup st.dist_from_start w = some cw ∧
      cw ≤ cv + g.dist v w
  inPQ : ∀ v, (alookup st.dist_from_start v).isSome = true →
    v ∈ P ∨ ∃ e ∈ st.to_explore, e.1 = v
  notGoal : ∀ v ∈ P, isEnd v = false
  prevLink : ∀ b a, alookup st.prev b = some a → b ∈ g.out_edges a ∧
    ∃ cb ca, alookup st.dist_from_start b = some cb ∧
      alookup st.dist_from_start a = some ca ∧
      (ca + g.dist a b < cb ∨ (ca + g.dist a b = cb ∧ τ a < τ b))
  prevKeys : ∀ v, (alookup st.prev v).isSome = true ↔
    ((alookup st.dist_from_start v).isSome = true ∧ v ≠ start)
  tauBound : ∀ v, (alookup st.dist_from_start v).isSome = true → τ v < T

/-- Consistency of a heuristic: along every edge, `h` drops by at most the
edge cost. -/
def Consistent (g : VGraph N ℕ) (h : N → ℕ) : Prop :=
  ∀ u, ∀ w ∈ g.out_edges u, h u ≤ g.dist u w + h w

/-- A nonempty sequence of nodes in which every consecutive pair is an edge. -/
def IsWalk {D : Type} (g : VGraph N D) : List N → Prop
  | [] => False
  | [_] => True
  | a :: b :: t => b ∈ g.out_edges a ∧ IsWalk g (b :: t)

/-- Modelled from the spec: the repository contains no Dijkstra implementation,
and the spec (sections 4.3 and 8) appeals to "a reference Dijkstra computation"
as the authority for shortest-path costs.  Dijkstra from `start` returns, when
some goal-satisfying node is reachable, the least total path cost to the
nearest goal-satisfying node, and no result exactly when no goal-satisfying
node is reachable. -/
def dijkstraSpec (g : VGraph N ℕ) (start : N) (isEnd : N → Bool) : Option ℕ → Prop
  | some c => (∃ v, isEnd v = true ∧ Reach g start v c) ∧
      ∀ v c2, isEnd v = true → Reach g start v c2 → c ≤ c2
  | none => ∀ v c2, isEnd v = true → Reach g start v c2 → False

/-- The graph 1 → 2, 2 → 1, 2 → 3 on which `breadth_first_search` builds a
cyclic predecessor map and then hangs in `back_track`. -/
def gBug : VGraph ℕ ℕ :=
  { out_edges := fun n => if n = 1 then [2] else if n = 2 then [1, 3] else [],
    dist := fun _ _ => 1 }

/-- The `Ex` test graph of lib.rs: 1 → 2 → 3, every edge of cost 1. -/
def gEx : VGraph ℕ ℕ :=
  { out_edges := fun n => if n = 1 then [2] else if n = 2 then [3] else [],
    dist := fun _ _ => 1 }

/-- The `Cycles` test graph of lib.rs. -/
def gCycles : VGraph ℕ ℕ :=
  { out_edges := fun n =>
      if n = 1 then [2, 3] else if n = 2 then [3, 6] else if n = 3 then [4, 5]
      else if n = 4 then [10, 5] else if n = 5 then [1] else if n = 6 then [2]
      else if n = 7 then [8] else if n = 8 then [9] else if n = 9 then [10]
      else if n = 10 then [1] else [],
    dist := fun a _ => if a = 3 then 3 else 1 }

/-- The predecessor map that `breadth_first_search` has built on `gBug` at the
moment it pops the goal node 3: node 1 was re-discovered from node 2, closing
the cycle 1 → 2 → 1. -/
def bugPrev : List (ℕ × ℕ) := [(3, 2), (1, 2), (2, 1)]

/-- The nodes of `gCycles` reachable from node 1: a finite set closed under
`out_edges` that misses the goal 33 of the termination tests. -/
def cycR : Finset ℕ := {1, 2, 3, 4, 5, 6, 10}

/-- The shared successor function of the two C10 witness graphs. -/
def exOut : ℕ → List ℕ := fun n => if n = 1 then [2] else if n = 2 then [3] else []

/-- Witness graph with unit edge costs. -/
def gDistOne : VGraph ℕ ℕ := { out_edges := exOut, dist := fun _ _ => 1 }

/-- Witness graph with the same edges as `gDistOne` but different costs. -/
def gDistSeven : VGraph ℕ ℕ := { out_edges := exOut, dist := fun _ _ => 7 }

/-! ## Theorems -/

/-! ### Association list and queue lemmas -/

theorem foldl_add_shift {A D : Type} [AddMonoid D] (w : A → D) :
    ∀ (l : List A) (i : D),
      l.foldl (fun acc q => acc + w q) i = i + l.foldl (fun acc q => acc + w q) 0 := by
  intro l
  induction l with
  | nil => intro i; simp
  | cons a t ih =>
    intro i
    simp only [List.foldl_cons]
    rw [ih (i + w a), ih (0 + w a), zero_add, add_assoc]

theorem foldl_add_eq_sum {A D : Type} [AddMonoid D] (w : A → D) (l : List A) :
    l.foldl (fun acc q => acc + w q) 0 = (l.map w).sum := by
  induction l with
  | nil => simp
  | cons a t ih =>
    simp only [List.foldl_cons, List.map_cons, List.sum_cons, zero_add]
    rw [foldl_add_shift w t (w a), ih]

theorem windows2_eq_zip {A : Type} : ∀ p : List A, windows2 p = p.zip p.tail := by
  intro p
  induction p with
  | nil => rfl
  | cons a t ih =>
    cases t with
    | nil => rfl
    | cons b t2 =>
      show (a, b) :: windows2 (b :: t2) = (a, b) :: (b :: t2).zip t2
      rw [ih]
      rfl

theorem alookup_aerase_self {A : Type} (k : N) :
    ∀ m : List (N × A), alookup (aerase k m) k = none := by
  intro m
  induction m with
  | nil => rfl
  | cons p rest ih =>
    by_cases h1 : p.1 = k
    · simp only [aerase, if_pos h1]
      exact ih
    · simp only [aerase, if_neg h1, alookup]
      exact ih

theorem alookup_aerase_ne {A : Type} (k key : N) (hne : key ≠ k) :
    ∀ m : List (N × A), alookup (aerase k m) key = alookup m key := by
  intro m
  induction m with
  | nil => rfl
  | cons p rest ih =>
    by_cases h1 : p.1 = k
    · have h2 : p.1 ≠ key := by
        intro hh
        exact hne (by rw [← hh, h1])
      simp only [aerase, if_pos h1, alookup, if_neg h2]
      exact ih
    · simp only [aerase, if_neg h1, alookup]
      by_cases h2 : p.1 = key
      · rw [if_pos h2, if_pos h2]
      · rw [if_neg h2, if_neg h2]
        exact ih

theorem alookup_ainsert_self {A : Type} (m : List (N × A)) (k : N) (v : A) :
    alookup (ainsert m k v) k = some v := by
  simp [ainsert, alookup]

theorem alookup_ainsert_ne {A : Type} (m : List (N × A)) {k key : N} (v : A)
    (hne : key ≠ k) : alookup (ainsert m k v) key = alookup m key := by
  simp only [ainsert, alookup]
  rw [if_neg (fun hh : k = key => hne hh.symm)]
  exact alookup_aerase_ne k key hne m

theorem alookup_isSome_ainsert {A : Type} (m : List (N × A)) (k key : N) (v : A)
    (hs : (alookup m key).isSome = true) :
    (alookup (ainsert m k v) key).isSome = true := by
  by_cases hk : key = k
  · subst hk
    rw [alookup_ainsert_self]
    rfl
  · rw [alookup_ainsert_ne m v hk]
    exact hs

theorem mem_aerase {A : Type} {k : N} :
    ∀ {m : List (N × A)} {e}, e ∈ aerase k m → e ∈ m := by
  intro m
  induction m with
  | nil => intro e he; exact absurd he (List.not_mem_nil e)
  | cons p rest ih =>
    intro e he
    by_cases h1 : p.1 = k
    · simp only [aerase, if_pos h1] at he
      exact List.mem_cons_of_mem p (ih he)
    · simp only [aerase, if_neg h1] at he
      rcases List.mem_cons.mp he with he | he
      · exact he ▸ List.mem_cons_self p rest
      · exact List.mem_cons_of_mem p (ih he)

theorem qBest_isSome {D : Type} [LinearOrder D] (x : N × D) (rest : List (N × D)) :
    ∃ b, qBest (x :: rest) = some b := by
  simp only [qBest]
  cases qBest rest with
  | none => exact ⟨x, rfl⟩
  | some b =>
    by_cases hlt : b.2 < x.2
    · exact ⟨b, if_pos hlt⟩
    · exact ⟨x, if_neg hlt⟩

theorem qBest_mem {D : Type} [LinearOrder D] :
    ∀ {q : List (N × D)} {b}, qBest q = some b → b ∈ q := by
  intro q
  induction q with
  | nil => intro b h; cases h
  | cons x rest ih =>
    intro b h
    cases hq : qBest rest with
    | none =>
      simp only [qBest, hq] at h
      cases h
      exact List.mem_cons_self x rest
    | some c =>
      simp only [qBest, hq] at h
      by_cases hlt : c.2 < x.2
      · rw [if_pos hlt] at h
        cases h
        exact List.mem_cons_of_mem x (ih hq)
      · rw [if_neg hlt] at h
        cases h
        exact List.mem_cons_self x rest

theorem qBest_min {D : Type} [LinearOrder D] :
    ∀ {q : List (N × D)} {b}, qBest q = some b → ∀ e ∈ q, b.2 ≤ e.2 := by
  intro q
  induction q with
  | nil => intro b h; cases h
  | cons x rest ih =>
    intro b h e he
    cases hq : qBest rest with
    | none =>
      simp only [qBest, hq] at h
      cases h
      rcases List.mem_cons.mp he with he | he
      · rw [he]
      · rcases rest with _ | ⟨y, rest2⟩
        · exact absurd he (List.not_mem_nil e)
        · obtain ⟨c, hc⟩ := qBest_isSome y rest2
          rw [hc] at hq
          cases hq
    | some c =>
      simp only [qBest, hq] at h
      by_cases hlt : c.2 < x.2
      · rw [if_pos hlt] at h
        cases h
        rcases List.mem_cons.mp he with he | he
        · rw [he]
          exact le_of_lt hlt
        · exact ih hq e he
      · rw [if_neg hlt] at h
        cases h
        rcases List.mem_cons.mp he with he | he
        · rw [he]
        · exact le_trans (le_of_not_lt hlt) (ih hq e he)

theorem qPop_mem {D : Type} [LinearOrder D] {q : List (N × D)} {cp : N × D}
    {q2 : List (N × D)} (h : qPop q = some (cp, q2)) : cp ∈ q := by
  simp only [qPop] at h
  cases hq : qBest q with
  | none => rw [hq] at h; cases h
  | some b =>
    rw [hq] at h
    cases h
    exact qBest_mem hq

theorem qPop_min {D : Type} [LinearOrder D] {q : List (N × D)} {cp : N × D}
    {q2 : List (N × D)} (h : qPop q = some (cp, q2)) : ∀ e ∈ q, cp.2 ≤ e.2 := by
  simp only [qPop] at h
  cases hq : qBest q with
  | none => rw [hq] at h; cases h
  | some b =>
    rw [hq] at h
    cases h
    exact qBest_min hq

theorem qPop_rest {D : Type} [LinearOrder D] {q : List (N × D)} {cp : N × D}
    {q2 : List (N × D)} (h : qPop q = some (cp, q2)) : q2 = aerase cp.1 q := by
  simp only [qPop] at h
  cases hq : qBest q with
  | none => rw [hq] at h; cases h
  | some b =>
    rw [hq] at h
    cases h
    rfl

theorem qPop_sub {D : Type} [LinearOrder D] {q : List (N × D)} {cp : N × D}
    {q2 : List (N × D)} (h : qPop q = some (cp, q2)) : ∀ e ∈ q2, e ∈ q := by
  intro e he
  rw [qPop_rest h] at he
  exact mem_aerase he

theorem mem_push_increase {D : Type} [LinearOrder D] {q : List (N × D)} {k : N}
    {p : D} : ∀ {e}, e ∈ push_increase q k p → e.1 = k ∨ e ∈ q := by
  intro e he
  cases hq : alookup q k with
  | none =>
    simp only [push_increase, hq] at he
    rcases List.mem_append.mp he with h | h
    · exact Or.inr h
    · left
      rw [List.mem_singleton.mp h]
  | some pOld =>
    simp only [push_increase, hq] at he
    by_cases hlt : p < pOld
    · rw [if_pos hlt] at he
      rcases List.mem_map.mp he with ⟨x, hx, hxe⟩
      by_cases hxk : x.1 = k
      · left
        rw [← hxe, if_pos hxk]
      · right
        rw [← hxe, if_neg hxk]
        exact hx
    · rw [if_neg hlt] at he
      exact Or.inr he

/-! ### C9: the expect in a_star_search never fails -/

theorem aRelax_cov {D : Type} [LinearOrder D] [Add D] (g : VGraph N D) (h : N → D)
    (cur : N) :
    ∀ (nexts : List N) (st : AState N D),
      (alookup st.dist_from_start cur).isSome = true →
      QCov st →
      ∃ st2, aRelax g h cur nexts st = some st2 ∧ QCov st2 ∧
        (∀ key, (alookup st.dist_from_start key).isSome = true →
          (alookup st2.dist_from_start key).isSome = true) := by
  intro nexts
  induction nexts with
  | nil =>
    intro st hcur hcov
    exact ⟨st, rfl, hcov, fun _ hk => hk⟩
  | cons nxt rest ih =>
    intro st hcur hcov
    obtain ⟨c, hc⟩ := Option.isSome_iff_exists.mp hcur
    cases hnxt : alookup st.dist_from_start nxt with
    | some best =>
      by_cases hle : best ≤ c + g.dist cur nxt
      · -- continue branch
        obtain ⟨st2, hrel, hcov2, hmono⟩ := ih st hcur hcov
        refine ⟨st2, ?_, hcov2, hmono⟩
        simp only [aRelax, hc, hnxt]
        rw [if_pos (by simpa using hle)]
        exact hrel
      · -- update branch: the strict-improvement check succeeds
        have hup : c + g.dist cur nxt < best := lt_of_not_le hle
        set stU : AState N D :=
          { to_explore := push_increase st.to_explore nxt (c + g.dist cur nxt + h nxt),
            prev := ainsert st.prev nxt cur,
            dist_from_start := ainsert st.dist_from_start nxt (c + g.dist cur nxt) }
          with hstU
        have hcurU : (alookup stU.dist_from_start cur).isSome = true := by
          exact alookup_isSome_ainsert _ _ _ _ hcur
        have hcovU : QCov stU := by
          intro e he
          rcases mem_push_increase he with hek | heq
          · rw [hek]
            rw [alookup_ainsert_self]
            rfl
          · exact alookup_isSome_ainsert _ _ _ _ (hcov e heq)
        obtain ⟨st2, hrel, hcov2, hmono⟩ := ih stU hcurU hcovU
        refine ⟨st2, ?_, hcov2, ?_⟩
        · simp only [aRelax, hc, hnxt]
          rw [if_neg (by simpa using hle), if_pos (by simpa using hup)]
          exact hrel
        · intro key hk
          exact hmono key (alookup_isSome_ainsert _ _ _ _ hk)
    | none =>
      -- fresh node: inserted
      set stU : AState N D :=
        { to_explore := push_increase st.to_explore nxt (c + g.dist cur nxt + h nxt),
          prev := ainsert st.prev nxt cur,
          dist_from_start := ainsert st.dist_from_start nxt (c + g.dist cur nxt) }
        with hstU
      have hcurU : (alookup stU.dist_from_start cur).isSome = true := by
        exact alookup_isSome_ainsert _ _ _ _ hcur
      have hcovU : QCov stU := by
        intro e he
        rcases mem_push_increase he with hek | heq
        · rw [hek]
          rw [alookup_ainsert_self]
          rfl
        · exact alookup_isSome_ainsert _ _ _ _ (hcov e heq)
      obtain ⟨st2, hrel, hcov2, hmono⟩ := ih stU hcurU hcovU
      refine ⟨st2, ?_, hcov2, ?_⟩
      · simp only [aRelax, hc, hnxt]
        rw [if_neg (by simp), if_pos (by simp)]
        exact hrel
      · intro key hk
        exact hmono key (alookup_isSome_ainsert _ _ _ _ hk)

theorem aStep_cov {D : Type} [LinearOrder D] [Add D] (g : VGraph N D)
    (isEnd : N → Bool) (h : N → D) {st : AState N D} (hcov : QCov st) :
    aStep g isEnd h st ≠ StepRes.halt AOut.expectFail ∧
    ∀ st2, aStep g isEnd h st = StepRes.next st2 → QCov st2 := by
  cases hq : qPop st.to_explore with
  | none =>
    constructor
    · simp [aStep, hq]
    · intro st2 hst2
      simp [aStep, hq] at hst2
  | some pr =>
    obtain ⟨cp, q2⟩ := pr
    have hmem : cp ∈ st.to_explore := qPop_mem hq
    have hsub : ∀ e ∈ q2, e ∈ st.to_explore := qPop_sub hq
    have hcur : (alookup st.dist_from_start cp.1).isSome = true := hcov cp hmem
    by_cases hend : isEnd cp.1 = true
    · constructor
      · simp [aStep, hq, hend]
      · intro st2 hst2
        simp [aStep, hq, hend] at hst2
    · have hcov2 : QCov { st with to_explore := q2 } := fun e he => hcov e (hsub e he)
      obtain ⟨st3, hrel, hcov3, _⟩ :=
        aRelax_cov g h cp.1 (g.out_edges cp.1) { st with to_explore := q2 } hcur hcov2
      constructor
      · simp only [aStep, hq]
        rw [if_neg hend, hrel]
        intro hcontra
        cases hcontra
      · intro st2 hst2
        simp only [aStep, hq] at hst2
        rw [if_neg hend, hrel] at hst2
        cases hst2
        exact hcov3

theorem aLoop_no_expectFail {D : Type} [LinearOrder D] [Add D] (g : VGraph N D)
    (isEnd : N → Bool) (h : N → D) :
    ∀ (fuel : ℕ) (st : AState N D), QCov st →
      aLoop g isEnd h fuel st ≠ some AOut.expectFail := by
  intro fuel
  induction fuel with
  | zero => intro st _ hcontra; cases hcontra
  | succ fuel ih =>
    intro st hcov
    obtain ⟨hnf, hnext⟩ := aStep_cov g isEnd h hcov
    cases hstep : aStep g isEnd h st with
    | halt r =>
      cases r with
      | found prev e => simp [aLoop, hstep]
      | notFound => simp [aLoop, hstep]
      | expectFail => exact absurd hstep hnf
    | next st2 =>
      simp only [aLoop, hstep]
      exact ih st2 (hnext st2 hstep)

theorem aIter_cov {D : Type} [LinearOrder D] [Add D] (g : VGraph N D)
    (isEnd : N → Bool) (h : N → D) :
    ∀ (n : ℕ) (st : AState N D), QCov st → QCov (aIter g isEnd h n st) := by
  intro n
  induction n with
  | zero => intro st hcov; exact hcov
  | succ n ih =>
    intro st hcov
    cases hstep : aStep g isEnd h st with
    | halt r => simpa [aIter, hstep] using hcov
    | next st2 =>
      simp only [aIter, hstep]
      exact ih st2 ((aStep_cov g isEnd h hcov).2 st2 hstep)

theorem aInit_cov {D : Type} [LinearOrder D] [Add D] [Zero D] (start : N)
    (h : N → D) : QCov (aInit (D := D) start h) := by
  intro e he
  simp only [aInit, push_increase, alookup, List.nil_append] at he
  rcases List.mem_singleton.mp he with rfl
  simp [aInit, ainsert, alookup]

/-- C9: in `a_star_search`, every node in the open set (in particular every
node popped from it) already has an entry in `dist_from_start`, so the internal
`expect` on line 68 of lib.rs can never fail, for any graph, start node, goal
predicate or heuristic. -/
theorem c9_expect_never_fails {N D : Type} [DecidableEq N] [LinearOrder D]
    [Add D] [Zero D] (g : VGraph N D) (start : N) (isEnd : N → Bool) (h : N → D) :
    (∀ fuel, aLoop g isEnd h fuel (aInit start h) ≠ some AOut.expectFail) ∧
    (∀ n, QCov (aIter g isEnd h n (aInit start h))) :=
  ⟨fun fuel => aLoop_no_expectFail g isEnd h fuel _ (aInit_cov start h),
   fun n => aIter_cov g isEnd h n _ (aInit_cov start h)⟩

/-! ### Key set, erase and sum lemmas for the termination measures -/

theorem akeys_cons {A : Type} (p : N × A) (m : List (N × A)) :
    akeys (p :: m) = insert p.1 (akeys m) := by
  simp [akeys]

theorem mem_akeys_iff_lookup {A : Type} :
    ∀ (m : List (N × A)) (x : N), x ∈ akeys m ↔ (alookup m x).isSome = true := by
  intro m
  induction m with
  | nil => intro x; simp [akeys, alookup]
  | cons p rest ih =>
    intro x
    rw [akeys_cons, Finset.mem_insert, ih]
    by_cases hp : p.1 = x
    · rw [alookup, if_pos hp]
      exact iff_of_true (Or.inl hp.symm) rfl
    · have hx : ¬x = p.1 := fun hh => hp hh.symm
      rw [alookup, if_neg hp]
      simp [hx]

theorem alookup_none_iff_not_mem {A : Type} (m : List (N × A)) (x : N) :
    alookup m x = none ↔ x ∉ akeys m := by
  rw [mem_akeys_iff_lookup]
  cases alookup m x <;> simp

theorem mem_akeys_aerase {A : Type} (k : N) :
    ∀ (m : List (N × A)) (x : N),
      x ∈ akeys (aerase k m) ↔ (x ≠ k ∧ x ∈ akeys m) := by
  intro m
  induction m with
  | nil => intro x; simp [aerase, akeys]
  | cons p rest ih =>
    intro x
    by_cases hp : p.1 = k
    · subst hp
      rw [show aerase p.1 (p :: rest) = aerase p.1 rest from if_pos rfl]
      rw [akeys_cons, Finset.mem_insert, ih]
      constructor
      · intro hh
        exact ⟨hh.1, Or.inr hh.2⟩
      · intro hh
        rcases hh.2 with hx | hx
        · exact absurd hx hh.1
        · exact ⟨hh.1, hx⟩
    · simp only [aerase, if_neg hp, akeys_cons, Finset.mem_insert]
      rw [ih]
      constructor
      · intro hh
        rcases hh with hx | hx
        · exact ⟨fun hk => hp (by rw [← hx]; exact hk), Or.inl hx⟩
        · exact ⟨hx.1, Or.inr hx.2⟩
      · intro hh
        rcases hh.2 with hx | hx
        · exact Or.inl hx
        · exact Or.inr ⟨hh.1, hx⟩

theorem akeys_aerase {A : Type} (k : N) (m : List (N × A)) :
    akeys (aerase k m) = (akeys m).erase k := by
  ext x
  rw [mem_akeys_aerase, Finset.mem_erase]

theorem akeys_ainsert {A : Type} (m : List (N × A)) (k : N) (v : A) :
    akeys (ainsert m k v) = insert k (akeys m) := by
  show akeys ((k, v) :: aerase k m) = insert k (akeys m)
  rw [akeys_cons, akeys_aerase]
  ext x
  simp only [Finset.mem_insert, Finset.mem_erase]
  by_cases hx : x = k <;> simp [hx]

theorem card_sdiff_ainsert_fresh {A : Type} (R : Finset N) (m : List (N × A))
    {k : N} (v : A) (hkR : k ∈ R) (hfresh : alookup m k = none) :
    (R \ akeys (ainsert m k v)).card < (R \ akeys m).card := by
  rw [akeys_ainsert]
  have hnot : k ∉ akeys m := (alookup_none_iff_not_mem m k).mp hfresh
  have hmem : k ∈ R \ akeys m := Finset.mem_sdiff.mpr ⟨hkR, hnot⟩
  have hsd : R \ insert k (akeys m) = (R \ akeys m).erase k := by
    ext x
    simp only [Finset.mem_sdiff, Finset.mem_insert, Finset.mem_erase]
    by_cases hx : x = k <;> simp [hx]
  rw [hsd]
  exact Finset.card_erase_lt_of_mem hmem

theorem akeys_ainsert_of_mem {A : Type} (m : List (N × A)) {k : N} (v : A)
    (hmem : (alookup m k).isSome = true) : akeys (ainsert m k v) = akeys m := by
  rw [akeys_ainsert]
  exact Finset.insert_eq_self.mpr ((mem_akeys_iff_lookup m k).mpr hmem)

theorem aerase_length_le {A : Type} (k : N) :
    ∀ m : List (N × A), (aerase k m).length ≤ m.length := by
  intro m
  induction m with
  | nil => exact Nat.le_refl 0
  | cons p rest ih =>
    by_cases hp : p.1 = k
    · simp only [aerase, if_pos hp, List.length_cons]
      omega
    · simp only [aerase, if_neg hp, List.length_cons]
      omega

theorem aerase_length_lt {A : Type} {k : N} :
    ∀ {m : List (N × A)}, (∃ e ∈ m, e.1 = k) → (aerase k m).length < m.length := by
  intro m
  induction m with
  | nil =>
    rintro ⟨e, he, _⟩
    exact absurd he (List.not_mem_nil e)
  | cons p rest ih =>
    rintro ⟨e, he, hek⟩
    by_cases hp : p.1 = k
    · simp only [aerase, if_pos hp, List.length_cons]
      exact Nat.lt_succ_of_le (aerase_length_le k rest)
    · simp only [aerase, if_neg hp, List.length_cons]
      rcases List.mem_cons.mp he with he | he
      · exact absurd (he ▸ hek) hp
      · exact Nat.succ_lt_succ (ih ⟨e, he, hek⟩)

theorem aerase_sublist {A : Type} (k : N) :
    ∀ m : List (N × A), List.Sublist (aerase k m) m := by
  intro m
  induction m with
  | nil => exact List.Sublist.refl []
  | cons p rest ih =>
    by_cases hp : p.1 = k
    · simp only [aerase, if_pos hp]
      exact ih.cons p
    · simp only [aerase, if_neg hp]
      exact ih.cons₂ p

theorem not_mem_fst_aerase {A : Type} (k : N) :
    ∀ m : List (N × A), k ∉ (aerase k m).map Prod.fst := by
  intro m
  induction m with
  | nil => simp [aerase]
  | cons p rest ih =>
    by_cases hp : p.1 = k
    · simp only [aerase, if_pos hp]
      exact ih
    · simp only [aerase, if_neg hp, List.map_cons, List.mem_cons]
      rintro (hk | hk)
      · exact hp hk.symm
      · exact ih hk

theorem nodup_fst_ainsert {A : Type} (m : List (N × A)) (k : N) (v : A)
    (hnd : (m.map Prod.fst).Nodup) : ((ainsert m k v).map Prod.fst).Nodup := by
  show ((k, v).1 :: (aerase k m).map Prod.fst).Nodup
  rw [List.nodup_cons]
  exact ⟨not_mem_fst_aerase k m,
    ((aerase_sublist k m).map Prod.fst).nodup hnd⟩

theorem dsum_cons (p : N × ℕ) (m : List (N × ℕ)) : dsum (p :: m) = p.2 + dsum m := by
  simp [dsum]

theorem aerase_of_lookup_none {A : Type} {k : N} :
    ∀ {m : List (N × A)}, alookup m k = none → aerase k m = m := by
  intro m
  induction m with
  | nil => intro _; rfl
  | cons p rest ih =>
    intro hlk
    by_cases hp : p.1 = k
    · rw [alookup, if_pos hp] at hlk
      cases hlk
    · rw [alookup, if_neg hp] at hlk
      simp only [aerase, if_neg hp]
      rw [ih hlk]

theorem dsum_aerase {k : N} :
    ∀ {m : List (N × ℕ)} {best : ℕ}, (m.map Prod.fst).Nodup →
      alookup m k = some best → dsum (aerase k m) + best = dsum m := by
  intro m
  induction m with
  | nil => intro best _ hlk; cases hlk
  | cons p rest ih =>
    intro best hnd hlk
    rw [List.map_cons, List.nodup_cons] at hnd
    by_cases hp : p.1 = k
    · rw [alookup, if_pos hp] at hlk
      cases hlk
      have hknotin : k ∉ akeys rest := by
        rw [akeys, List.mem_toFinset, ← hp]
        exact hnd.1
      have hrest : alookup rest k = none := (alookup_none_iff_not_mem rest k).mpr hknotin
      simp only [aerase, if_pos hp, aerase_of_lookup_none hrest, dsum_cons]
      omega
    · rw [alookup, if_neg hp] at hlk
      have := ih hnd.2 hlk
      simp only [aerase, if_neg hp, dsum_cons]
      omega

theorem dsum_ainsert_improve {k : N} {m : List (N × ℕ)} {best v : ℕ}
    (hnd : (m.map Prod.fst).Nodup) (hlk : alookup m k = some best) (hv : v < best) :
    dsum (ainsert m k v) < dsum m := by
  have hae := dsum_aerase hnd hlk
  show dsum ((k, v) :: aerase k m) < dsum m
  rw [dsum_cons]
  omega

/-! ### C5: termination with an unreachable goal -/

theorem bfsRelax_queue_sub (cur : N) :
    ∀ (nexts : List N) (prev : List (N × N)) (queue : List N),
      ∀ v ∈ (bfsRelax cur nexts prev queue).2, v ∈ queue ∨ v ∈ nexts := by
  intro nexts
  induction nexts with
  | nil => intro prev queue v hv; exact Or.inl hv
  | cons nxt rest ih =>
    intro prev queue v hv
    cases hlk : alookup prev nxt with
    | some w =>
      simp only [bfsRelax, hlk] at hv
      rcases ih prev queue v hv with h1 | h1
      · exact Or.inl h1
      · exact Or.inr (List.mem_cons_of_mem nxt h1)
    | none =>
      simp only [bfsRelax, hlk] at hv
      rcases ih (ainsert prev nxt cur) (queue ++ [nxt]) v hv with h1 | h1
      · rcases List.mem_append.mp h1 with h2 | h2
        · exact Or.inl h2
        · exact Or.inr (by rw [List.mem_singleton.mp h2]; exact List.mem_cons_self nxt rest)
      · exact Or.inr (List.mem_cons_of_mem nxt h1)

theorem bfsRelax_measure (R : Finset N) (cur : N) :
    ∀ (nexts : List N) (prev : List (N × N)) (queue : List N),
      (∀ n ∈ nexts, n ∈ R) →
      bfsMeasure R (bfsRelax cur nexts prev queue).2 (bfsRelax cur nexts prev queue).1 ≤
        bfsMeasure R queue prev := by
  intro nexts
  induction nexts with
  | nil => intro prev queue _; exact le_refl _
  | cons nxt rest ih =>
    intro prev queue hR
    cases hlk : alookup prev nxt with
    | some w =>
      simp only [bfsRelax, hlk]
      exact ih prev queue (fun n hn => hR n (List.mem_cons_of_mem nxt hn))
    | none =>
      simp only [bfsRelax, hlk]
      refine le_trans (ih _ _ (fun n hn => hR n (List.mem_cons_of_mem nxt hn))) ?_
      have hcard := card_sdiff_ainsert_fresh R prev (k := nxt) cur
        (hR nxt (List.mem_cons_self nxt rest)) hlk
      simp only [bfsMeasure, List.length_append, List.length_singleton]
      omega

theorem bfsLoop_term {D : Type} (g : VGraph N D) (goal : N) (R : Finset N)
    (hclosed : ∀ v ∈ R, ∀ w ∈ g.out_edges v, w ∈ R)
    (hgoal : ∀ v ∈ R, v ≠ goal) :
    ∀ (μ : ℕ) (queue : List N) (prev : List (N × N)),
      bfsMeasure R queue prev ≤ μ → (∀ v ∈ queue, v ∈ R) →
      ∃ f, bfsLoop g goal f queue prev = some BfsOut.notFound := by
  intro μ
  induction μ with
  | zero =>
    intro queue prev hμ _
    have hq0 : queue.length = 0 := by
      simp only [bfsMeasure] at hμ
      omega
    rw [List.length_eq_zero] at hq0
    subst hq0
    exact ⟨1, rfl⟩
  | succ μ ih =>
    intro queue prev hμ hq
    cases queue with
    | nil => exact ⟨1, rfl⟩
    | cons cur rest =>
      have hcurR : cur ∈ R := hq cur (List.mem_cons_self cur rest)
      have hne : cur ≠ goal := hgoal cur hcurR
      have hnexts : ∀ n ∈ g.out_edges cur, n ∈ R := hclosed cur hcurR
      have hm := bfsRelax_measure R cur (g.out_edges cur) prev rest hnexts
      have hmem := bfsRelax_queue_sub cur (g.out_edges cur) prev rest
      have hbound : bfsMeasure R (bfsRelax cur (g.out_edges cur) prev rest).2
          (bfsRelax cur (g.out_edges cur) prev rest).1 ≤ μ := by
        simp only [bfsMeasure, List.length_cons] at hμ hm ⊢
        omega
      obtain ⟨f, hf⟩ := ih _ _ hbound (fun v hv => (hmem v hv).elim
        (fun h1 => hq v (List.mem_cons_of_mem cur h1)) (fun h2 => hnexts v h2))
      refine ⟨f + 1, ?_⟩
      simp only [bfsLoop]
      rw [if_neg hne]
      exact hf

theorem TwoLt_trans {R : Finset N} {a b c : AState N ℕ}
    (h1 : TwoLt R a b) (h2 : TwoLt R b c) : TwoLt R a c := by
  rcases h1 with h1 | ⟨he1, hd1⟩ <;> rcases h2 with h2 | ⟨he2, hd2⟩
  · exact Or.inl (lt_trans h1 h2)
  · exact Or.inl (by omega)
  · exact Or.inl (by omega)
  · exact Or.inr ⟨by omega, by omega⟩

theorem aRelax_term (g : VGraph N ℕ) (h : N → ℕ) (cur : N) (R : Finset N) :
    ∀ (nexts : List N) (st : AState N ℕ),
      (∀ n ∈ nexts, n ∈ R) → AWf R st →
      (alookup st.dist_from_start cur).isSome = true →
      ∃ st2, aRelax g h cur nexts st = some st2 ∧ AWf R st2 ∧
        (TwoLt R st2 st ∨ st2 = st) := by
  intro nexts
  induction nexts with
  | nil => intro st _ hwf _; exact ⟨st, rfl, hwf, Or.inr rfl⟩
  | cons nxt rest ih =>
    intro st hnR hwf hcur
    obtain ⟨hqR, hkR, hcov, hnd⟩ := hwf
    obtain ⟨c, hc⟩ := Option.isSome_iff_exists.mp hcur
    have hnxtR : nxt ∈ R := hnR nxt (List.mem_cons_self nxt rest)
    have hrestR : ∀ n ∈ rest, n ∈ R := fun n hn => hnR n (List.mem_cons_of_mem nxt hn)
    cases hnxt : alookup st.dist_from_start nxt with
    | some best =>
      by_cases hle : best ≤ c + g.dist cur nxt
      · obtain ⟨st2, hrel, hwf2, hdec⟩ := ih st hrestR ⟨hqR, hkR, hcov, hnd⟩ hcur
        refine ⟨st2, ?_, hwf2, hdec⟩
        simp only [aRelax, hc, hnxt]
        rw [if_pos (by simpa using hle)]
        exact hrel
      · have hup : c + g.dist cur nxt < best := lt_of_not_le hle
        have hwfU : AWf R
            { to_explore := push_increase st.to_explore nxt (c + g.dist cur nxt + h nxt),
              prev := ainsert st.prev nxt cur,
              dist_from_start := ainsert st.dist_from_start nxt (c + g.dist cur nxt) } := by
          refine ⟨?_, ?_, ?_, ?_⟩
          · intro e he
            rcases mem_push_increase he with hek | heq
            · rw [hek]; exact hnxtR
            · exact hqR e heq
          · rw [akeys_ainsert]
            exact Finset.insert_subset_iff.mpr ⟨hnxtR, hkR⟩
          · intro e he
            rcases mem_push_increase he with hek | heq
            · rw [hek, alookup_ainsert_self]
              rfl
            · exact alookup_isSome_ainsert _ _ _ _ (hcov e heq)
          · exact nodup_fst_ainsert _ _ _ hnd
        have hcurU : (alookup (ainsert st.dist_from_start nxt (c + g.dist cur nxt))
            cur).isSome = true := alookup_isSome_ainsert _ _ _ _ hcur
        obtain ⟨st2, hrel, hwf2, hdec⟩ := ih _ hrestR hwfU hcurU
        have hUlt : TwoLt R
            { to_explore := push_increase st.to_explore nxt (c + g.dist cur nxt + h nxt),
              prev := ainsert st.prev nxt cur,
              dist_from_start := ainsert st.dist_from_start nxt (c + g.dist cur nxt) }
            st := by
          right
          constructor
          · show (R \ akeys (ainsert st.dist_from_start nxt (c + g.dist cur nxt))).card =
              (R \ akeys st.dist_from_start).card
            rw [akeys_ainsert_of_mem _ _ (by rw [hnxt]; rfl)]
          · show dsum (ainsert st.dist_from_start nxt (c + g.dist cur nxt)) <
              dsum st.dist_from_start
            exact dsum_ainsert_improve hnd hnxt hup
        refine ⟨st2, ?_, hwf2, ?_⟩
        · simp only [aRelax, hc, hnxt]
          rw [if_neg (by simpa using hle), if_pos (by simpa using hup)]
          exact hrel
        · rcases hdec with hdec | hdec
          · exact Or.inl (TwoLt_trans hdec hUlt)
          · exact Or.inl (hdec ▸ hUlt)
    | none =>
      have hwfU : AWf R
          { to_explore := push_increase st.to_explore nxt (c + g.dist cur nxt + h nxt),
            prev := ainsert st.prev nxt cur,
            dist_from_start := ainsert st.dist_from_start nxt (c + g.dist cur nxt) } := by
        refine ⟨?_, ?_, ?_, ?_⟩
        · intro e he
          rcases mem_push_increase he with hek | heq
          · rw [hek]; exact hnxtR
          · exact hqR e heq
        · rw [akeys_ainsert]
          exact Finset.insert_subset_iff.mpr ⟨hnxtR, hkR⟩
        · intro e he
          rcases mem_push_increase he with hek | heq
          · rw [hek, alookup_ainsert_self]
            rfl
          · exact alookup_isSome_ainsert _ _ _ _ (hcov e heq)
        · exact nodup_fst_ainsert _ _ _ hnd
      have hcurU : (alookup (ainsert st.dist_from_start nxt (c + g.dist cur nxt))
          cur).isSome = true := alookup_isSome_ainsert _ _ _ _ hcur
      obtain ⟨st2, hrel, hwf2, hdec⟩ := ih _ hrestR hwfU hcurU
      have hUlt : TwoLt R
          { to_explore := push_increase st.to_explore nxt (c + g.dist cur nxt + h nxt),
            prev := ainsert st.prev nxt cur,
            dist_from_start := ainsert st.dist_from_start nxt (c + g.dist cur nxt) }
          st :=
        Or.inl (card_sdiff_ainsert_fresh R st.dist_from_start _ hnxtR hnxt)
      refine ⟨st2, ?_, hwf2, ?_⟩
      · simp only [aRelax, hc, hnxt]
        rw [if_neg (by simp), if_pos (by simp)]
        exact hrel
      · rcases hdec with hdec | hdec
        · exact Or.inl (TwoLt_trans hdec hUlt)
        · exact Or.inl (hdec ▸ hUlt)

theorem aLoop_term (g : VGraph N ℕ) (isEnd : N → Bool) (h : N → ℕ) (R : Finset N)
    (hclosed : ∀ v ∈ R, ∀ w ∈ g.out_edges v, w ∈ R)
    (hgoal : ∀ v ∈ R, isEnd v = false) :
    ∀ (a b cc : ℕ) (st : AState N ℕ),
      (R \ akeys st.dist_from_start).card ≤ a → dsum st.dist_from_start ≤ b →
      st.to_explore.length ≤ cc → AWf R st →
      ∃ f, aLoop g isEnd h f st = some AOut.notFound := by
  intro a
  induction a using Nat.strong_induction_on with
  | _ a iha =>
    intro b
    induction b using Nat.strong_induction_on with
    | _ b ihb =>
      intro cc
      induction cc using Nat.strong_induction_on with
      | _ cc ihc =>
        intro st ha hb hc hwf
        obtain ⟨hqR, hkR, hcov, hnd⟩ := hwf
        cases hqpop : qPop st.to_explore with
        | none =>
          refine ⟨1, ?_⟩
          simp [aLoop, aStep, hqpop]
        | some pr =>
          obtain ⟨cp, q2⟩ := pr
          have hcpmem : cp ∈ st.to_explore := qPop_mem hqpop
          have hcpR : cp.1 ∈ R := hqR cp hcpmem
          have hnotEnd : ¬isEnd cp.1 = true := by
            rw [hgoal cp.1 hcpR]
            exact Bool.false_ne_true
          have hsub := qPop_sub hqpop
          have hwf2 : AWf R { st with to_explore := q2 } :=
            ⟨fun e he => hqR e (hsub e he), hkR, fun e he => hcov e (hsub e he), hnd⟩
          have hcur : (alookup st.dist_from_start cp.1).isSome = true := hcov cp hcpmem
          obtain ⟨st2, hrel, hwf3, hdec⟩ :=
            aRelax_term g h cp.1 R (g.out_edges cp.1) { st with to_explore := q2 }
              (hclosed cp.1 hcpR) hwf2 hcur
          have hq2len : q2.length < st.to_explore.length := by
            rw [qPop_rest hqpop]
            exact aerase_length_lt ⟨cp, hcpmem, rfl⟩
          have hstep : ∃ f, aLoop g isEnd h f st2 = some AOut.notFound := by
            have hdm : ({ st with to_explore := q2 } : AState N ℕ).dist_from_start =
                st.dist_from_start := rfl
            rcases hdec with hdec | hdec
            · rcases hdec with hlt | ⟨heq, hlt⟩
              · rw [hdm] at hlt
                exact iha _ (lt_of_lt_of_le hlt ha) (dsum st2.dist_from_start)
                  st2.to_explore.length st2 (le_refl _) (le_refl _) (le_refl _) hwf3
              · rw [hdm] at heq hlt
                have hblt : dsum st2.dist_from_start < b := lt_of_lt_of_le hlt hb
                exact ihb _ hblt st2.to_explore.length st2 (by omega) (le_refl _)
                  (le_refl _) hwf3
            · have hclt : st2.to_explore.length < cc := by
                rw [hdec]
                show q2.length < cc
                omega
              refine ihc _ hclt st2 ?_ ?_ (le_refl _) ?_
              · rw [hdec]
                show (R \ akeys st.dist_from_start).card ≤ a
                exact ha
              · rw [hdec]
                show dsum st.dist_from_start ≤ b
                exact hb
              · rw [hdec]
                exact hwf2
          obtain ⟨f, hf⟩ := hstep
          refine ⟨f + 1, ?_⟩
          simp only [aLoop, aStep, hqpop]
          rw [if_neg hnotEnd, hrel]
          exact hf

/-- C5: for every graph whose reachable nodes from `start` lie in a finite set
`R` closed under `out_edges`, with natural-number (hence non-negative) edge
distances, if no node of `R` equals the BFS goal and no node of `R` satisfies
the A* goal predicate, then both searches terminate and return the Rust `None`
(rendered `some none`: neither a panic nor exhausted fuel), even when the graph
contains cycles. -/
theorem c5_unreachable_goal_returns_none {N : Type} [DecidableEq N]
    (g : VGraph N ℕ) (start goal : N) (isEnd : N → Bool) (h : N → ℕ)
    (R : Finset N) (hstart : start ∈ R)
    (hclosed : ∀ v ∈ R, ∀ w ∈ g.out_edges v, w ∈ R)
    (hnoBfs : ∀ v ∈ R, v ≠ goal) (hnoA : ∀ v ∈ R, isEnd v = false) :
    (∃ f, ∀ b, breadth_first_search g start goal f b = some none) ∧
    (∃ f, ∀ b, a_star_search g start isEnd h f b = some none) := by
  constructor
  · obtain ⟨f, hf⟩ := bfsLoop_term g goal R hclosed hnoBfs
      (bfsMeasure R [start] []) [start] [] (le_refl _)
      (fun v hv => by rw [List.mem_singleton.mp hv]; exact hstart)
    refine ⟨f, fun b => ?_⟩
    simp [breadth_first_search, hf]
  · have hwf0 : AWf R (aInit (D := ℕ) start h) := by
      refine ⟨?_, ?_, aInit_cov start h, ?_⟩
      · intro e he
        simp only [aInit, push_increase, alookup, List.nil_append] at he
        rw [List.mem_singleton.mp he]
        exact hstart
      · show akeys (ainsert [] start 0) ⊆ R
        rw [akeys_ainsert]
        refine Finset.insert_subset_iff.mpr ⟨hstart, ?_⟩
        intro x hx
        simp [akeys] at hx
      · show ((ainsert ([] : List (N × ℕ)) start 0).map Prod.fst).Nodup
        simp [ainsert, aerase]
    obtain ⟨f, hf⟩ := aLoop_term g isEnd h R hclosed hnoA
      ((R \ akeys (aInit (D := ℕ) start h).dist_from_start).card)
      (dsum (aInit (D := ℕ) start h).dist_from_start)
      ((aInit (D := ℕ) start h).to_explore.length)
      (aInit start h) (le_refl _) (le_refl _) (le_refl _) hwf0
    refine ⟨f, fun b => ?_⟩
    simp [a_star_search, hf]

theorem c5_witness :
    ((1 : ℕ) ∈ cycR ∧
      (∀ v ∈ cycR, ∀ w ∈ gCycles.out_edges v, w ∈ cycR) ∧
      (∀ v ∈ cycR, v ≠ 33) ∧
      (∀ v ∈ cycR, (fun n : ℕ => n == 33) v = false)) ∧
    ((∃ f, ∀ b, breadth_first_search gCycles 1 33 f b = some none) ∧
     (∃ f, ∀ b, a_star_search gCycles 1 (fun n => n == 33) (fun _ => 0) f b =
        some none)) :=
  ⟨⟨by decide, by decide, by decide, by decide⟩,
    c5_unreachable_goal_returns_none gCycles 1 33 (fun n => n == 33) (fun _ => 0)
      cycR (by decide) (by decide) (by decide) (by decide)⟩

/-! ### C6 and C4: the distance map only improves -/

theorem aRelax_mono {D : Type} [LinearOrder D] [Add D] (g : VGraph N D)
    (h : N → D) (cur : N) :
    ∀ (nexts : List N) (st st2 : AState N D),
      aRelax g h cur nexts st = some st2 →
      ∀ v c, alookup st.dist_from_start v = some c →
        ∃ c2, alookup st2.dist_from_start v = some c2 ∧ c2 ≤ c := by
  intro nexts
  induction nexts with
  | nil =>
    intro st st2 hrel v c hc
    cases hrel
    exact ⟨c, hc, le_refl c⟩
  | cons nxt rest ih =>
    intro st st2 hrel v c hc
    cases hcur : alookup st.dist_from_start cur with
    | none =>
      simp only [aRelax, hcur] at hrel
      exact Option.noConfusion hrel
    | some ccur =>
      cases hnxt : alookup st.dist_from_start nxt with
      | some best =>
        by_cases hle : best ≤ ccur + g.dist cur nxt
        · have hrel2 : aRelax g h cur rest st = some st2 := by
            simp only [aRelax, hcur, hnxt] at hrel
            rw [if_pos (by simpa using hle)] at hrel
            exact hrel
          exact ih st st2 hrel2 v c hc
        · have hup : ccur + g.dist cur nxt < best := lt_of_not_le hle
          have hrel2 : aRelax g h cur rest
              { to_explore := push_increase st.to_explore nxt
                  (ccur + g.dist cur nxt + h nxt),
                prev := ainsert st.prev nxt cur,
                dist_from_start := ainsert st.dist_from_start nxt
                  (ccur + g.dist cur nxt) } = some st2 := by
            simp only [aRelax, hcur, hnxt] at hrel
            rw [if_neg (by simpa using hle), if_pos (by simpa using hup)] at hrel
            exact hrel
          by_cases hv : v = nxt
          · subst hv
            have hc2 : c = best := by
              rw [hc] at hnxt
              exact Option.some_injective _ hnxt
            obtain ⟨c2, hlk2, hle2⟩ := ih _ st2 hrel2 v (ccur + g.dist cur v)
              (by exact alookup_ainsert_self _ _ _)
            exact ⟨c2, hlk2, le_trans hle2 (by rw [hc2]; exact le_of_lt hup)⟩
          · obtain ⟨c2, hlk2, hle2⟩ := ih _ st2 hrel2 v c
              (by rw [alookup_ainsert_ne _ _ hv]; exact hc)
            exact ⟨c2, hlk2, hle2⟩
      | none =>
        have hvnxt : v ≠ nxt := by
          intro hv
          rw [← hv, hc] at hnxt
          cases hnxt
        have hrel2 : aRelax g h cur rest
            { to_explore := push_increase st.to_explore nxt
                (ccur + g.dist cur nxt + h nxt),
              prev := ainsert st.prev nxt cur,
              dist_from_start := ainsert st.dist_from_start nxt
                (ccur + g.dist cur nxt) } = some st2 := by
          simp only [aRelax, hcur, hnxt] at hrel
          rw [if_neg (by simp), if_pos (by simp)] at hrel
          exact hrel
        obtain ⟨c2, hlk2, hle2⟩ := ih _ st2 hrel2 v c
          (by rw [alookup_ainsert_ne _ _ hvnxt]; exact hc)
        exact ⟨c2, hlk2, hle2⟩

theorem aStep_mono {D : Type} [LinearOrder D] [Add D] (g : VGraph N D)
    (isEnd : N → Bool) (h : N → D) {st st2 : AState N D}
    (hstep : aStep g isEnd h st = StepRes.next st2) :
    ∀ v c, alookup st.dist_from_start v = some c →
      ∃ c2, alookup st2.dist_from_start v = some c2 ∧ c2 ≤ c := by
  cases hq : qPop st.to_explore with
  | none =>
    simp only [aStep, hq] at hstep
    cases hstep
  | some pr =>
    obtain ⟨cp, q2⟩ := pr
    simp only [aStep, hq] at hstep
    by_cases hend : isEnd cp.1 = true
    · rw [if_pos hend] at hstep
      cases hstep
    · rw [if_neg hend] at hstep
      cases hrel : aRelax g h cp.1 (g.out_edges cp.1) { st with to_explore := q2 } with
      | none => rw [hrel] at hstep; cases hstep
      | some st3 =>
        rw [hrel] at hstep
        cases hstep
        exact fun v c hc => aRelax_mono g h cp.1 _ _ _ hrel v c hc

theorem aIter_succ {D : Type} [LinearOrder D] [Add D] (g : VGraph N D)
    (isEnd : N → Bool) (h : N → D) :
    ∀ (n : ℕ) (st : AState N D),
      aIter g isEnd h (n + 1) st = aStepF g isEnd h (aIter g isEnd h n st) := by
  intro n
  induction n with
  | zero =>
    intro st
    show aIter g isEnd h 1 st = aStepF g isEnd h st
    cases hstep : aStep g isEnd h st with
    | halt r => simp [aIter, aStepF, hstep]
    | next st2 => simp [aIter, aStepF, hstep]
  | succ n ih =>
    intro st
    cases hstep : aStep g isEnd h st with
    | halt r =>
      have h1 : ∀ k, aIter g isEnd h (k + 1) st = st := by
        intro k
        simp [aIter, hstep]
      rw [h1, h1]
      simp [aStepF, hstep]
    | next st2 =>
      have h1 : ∀ k, aIter g isEnd h (k + 1) st = aIter g isEnd h k st2 := by
        intro k
        simp [aIter, hstep]
      rw [h1, h1, ih st2]

theorem alookup_some_mem {A : Type} {k : N} {v : A} :
    ∀ {m : List (N × A)}, alookup m k = some v → (k, v) ∈ m := by
  intro m
  induction m with
  | nil => intro h2; cases h2
  | cons p rest ih =>
    rcases p with ⟨a, b⟩
    intro h2
    by_cases hp : a = k
    · rw [alookup, if_pos hp] at h2
      subst hp
      rw [Option.some_injective _ h2]
      exact List.mem_cons_self _ _
    · rw [alookup, if_neg hp] at h2
      exact List.mem_cons_of_mem _ (ih h2)

theorem isSome_alookup_of_mem {A : Type} {e : N × A} :
    ∀ {m : List (N × A)}, e ∈ m → (alookup m e.1).isSome = true := by
  intro m
  induction m with
  | nil => intro he; exact absurd he (List.not_mem_nil e)
  | cons p rest ih =>
    intro he
    by_cases hp : p.1 = e.1
    · rw [alookup, if_pos hp]
      rfl
    · rw [alookup, if_neg hp]
      rcases List.mem_cons.mp he with he | he
      · exact absurd (congrArg Prod.fst he).symm hp
      · exact ih he

theorem mem_aerase_of_ne {A : Type} {k : N} {e : N × A} :
    ∀ {m : List (N × A)}, e ∈ m → e.1 ≠ k → e ∈ aerase k m := by
  intro m
  induction m with
  | nil => intro he _; exact absurd he (List.not_mem_nil e)
  | cons p rest ih =>
    intro he hne
    by_cases hp : p.1 = k
    · simp only [aerase, if_pos hp]
      rcases List.mem_cons.mp he with he | he
      · exact absurd hp (he ▸ hne)
      · exact ih he hne
    · simp only [aerase, if_neg hp]
      rcases List.mem_cons.mp he with he | he
      · exact he ▸ List.mem_cons_self p _
      · exact List.mem_cons_of_mem p (ih he hne)

theorem push_increase_keeps {D : Type} [LinearOrder D] {q : List (N × D)} {k : N}
    {p : D} {e : N × D} (he : e ∈ q) (hne : e.1 ≠ k) : e ∈ push_increase q k p := by
  cases hq : alookup q k with
  | none =>
    simp only [push_increase, hq]
    exact List.mem_append.mpr (Or.inl he)
  | some pOld =>
    simp only [push_increase, hq]
    by_cases hlt : p < pOld
    · rw [if_pos hlt]
      refine List.mem_map.mpr ⟨e, he, ?_⟩
      rw [if_neg hne]
    · rw [if_neg hlt]
      exact he

theorem push_increase_self {D : Type} [LinearOrder D] {q : List (N × D)} {k : N}
    {p : D}
    (hcond : alookup q k = none ∨ ∃ pOld, alookup q k = some pOld ∧ p < pOld) :
    (k, p) ∈ push_increase q k p := by
  rcases hcond with hq | ⟨pOld, hq, hlt⟩
  · simp [push_increase, hq]
  · simp only [push_increase, hq, if_pos hlt]
    refine List.mem_map.mpr ⟨(k, pOld), alookup_some_mem hq, ?_⟩
    simp

theorem mem_push_increase_update {D : Type} [LinearOrder D] {q : List (N × D)}
    {k : N} {p : D}
    (hcond : alookup q k = none ∨ ∃ pOld, alookup q k = some pOld ∧ p < pOld) :
    ∀ {e}, e ∈ push_increase q k p → e = (k, p) ∨ (e ∈ q ∧ e.1 ≠ k) := by
  intro e he
  rcases hcond with hq | ⟨pOld, hq, hlt⟩
  · simp only [push_increase, hq] at he
    rcases List.mem_append.mp he with h1 | h1
    · refine Or.inr ⟨h1, fun hek => ?_⟩
      have := isSome_alookup_of_mem h1
      rw [hek, hq] at this
      cases this
    · exact Or.inl (List.mem_singleton.mp h1)
  · simp only [push_increase, hq, if_pos hlt] at he
    rcases List.mem_map.mp he with ⟨x, hx, hxe⟩
    by_cases hxk : x.1 = k
    · left
      rw [← hxe, if_pos hxk]
    · right
      rw [← hxe, if_neg hxk]
      exact ⟨hx, hxk⟩

theorem exists_min_reach {g : VGraph N ℕ} {start v : N} :
    ∀ (c0 : ℕ), Reach g start v c0 → ∃ c, IsMinReach g start v c := by
  intro c0
  induction c0 using Nat.strong_induction_on with
  | _ c0 ih =>
    intro hr
    by_cases hmin : ∀ c2, Reach g start v c2 → c0 ≤ c2
    · exact ⟨c0, hr, hmin⟩
    · push_neg at hmin
      obtain ⟨c2, hc2, hlt⟩ := hmin
      exact ih c2 hlt hc2

theorem AInv_cover {g : VGraph N ℕ} {start : N} {isEnd : N → Bool} {h : N → ℕ}
    {P : Finset N} {τ : N → ℕ} {T : ℕ} {st : AState N ℕ}
    (hinv : AInv g start isEnd h P P τ T st) (hcons : Consistent g h) :
    ∀ (w : N) (cw : ℕ), Reach g start w cw → w ∉ P →
      ∃ e ∈ st.to_explore, ∃ ce, alookup st.dist_from_start e.1 = some ce ∧
        ce + h e.1 ≤ cw + h w := by
  intro w cw hr
  induction hr with
  | refl =>
    intro hnp
    rcases hinv.inPQ start (by rw [hinv.start0]; rfl) with hP | ⟨e, he, hek⟩
    · exact absurd hP hnp
    · obtain ⟨ce, hce, _⟩ := hinv.prio e he
      have hce0 : ce = 0 := by
        rw [hek] at hce
        exact Option.some_injective _ (hce.symm.trans hinv.start0)
      refine ⟨e, he, ce, hce, ?_⟩
      rw [hek, hce0]
  | @step u c v hsub hedge ih =>
    intro hnp
    by_cases huP : u ∈ P
    · obtain ⟨cu2, hcu2, hmin⟩ := hinv.settled u huP
      obtain ⟨cw2, hcw2, hle2⟩ := hinv.relaxed u huP cu2 hcu2 v hedge
      rcases hinv.inPQ v (by rw [hcw2]; rfl) with hvP | ⟨e, he, hek⟩
      · exact absurd hvP hnp
      · obtain ⟨ce, hce, _⟩ := hinv.prio e he
        have hece : ce = cw2 := by
          rw [hek] at hce
          exact Option.some_injective _ (hce.symm.trans hcw2)
        refine ⟨e, he, ce, hce, ?_⟩
        rw [hek]
        have hcu2c := hmin c hsub
        omega
    · obtain ⟨e, he, ce, hce, hbound⟩ := ih huP
      refine ⟨e, he, ce, hce, ?_⟩
      have := hcons u v hedge
      omega

theorem AInv_pop_optimal {g : VGraph N ℕ} {start : N} {isEnd : N → Bool}
    {h : N → ℕ} {P : Finset N} {τ : N → ℕ} {T : ℕ} {st : AState N ℕ}
    (hinv : AInv g start isEnd h P P τ T st) (hcons : Consistent g h)
    {cp : N × ℕ} {q2 : List (N × ℕ)} (hq : qPop st.to_explore = some (cp, q2)) :
    ∃ cv, alookup st.dist_from_start cp.1 = some cv ∧ IsMinReach g start cp.1 cv := by
  have hmem := qPop_mem hq
  obtain ⟨cv, hcv, hpe⟩ := hinv.prio cp hmem
  by_cases hP : cp.1 ∈ P
  · obtain ⟨cv2, hcv2, hmin⟩ := hinv.settled cp.1 hP
    have hveq : cv2 = cv := Option.some_injective _ (hcv2.symm.trans hcv)
    exact ⟨cv, hcv, hinv.reach _ _ hcv, hveq ▸ hmin⟩
  · have hreach := hinv.reach cp.1 cv hcv
    obtain ⟨copt, hoptr, hoptmin⟩ := exists_min_reach cv hreach
    obtain ⟨e, he, ce, hce, hbound⟩ := AInv_cover hinv hcons cp.1 copt hoptr hP
    have hple := qPop_min hq e he
    obtain ⟨ce2, hce2, hpe2⟩ := hinv.prio e he
    have hcee : ce2 = ce := Option.some_injective _ (hce2.symm.trans hce)
    have hcvopt : cv = copt := by
      have h1 := hoptmin cv hreach
      rw [hpe, hpe2, hcee] at hple
      omega
    exact ⟨cv, hcv, hreach, fun c2 hc2 => by rw [hcvopt]; exact hoptmin c2 hc2⟩

theorem aRelax_inv_update {g : VGraph N ℕ} {start : N} {isEnd : N → Bool}
    {h : N → ℕ} {S P : Finset N} {τ : N → ℕ} {T : ℕ} {st : AState N ℕ}
    {cur nxt : N} {ccur : ℕ}
    (hinv : AInv g start isEnd h S P τ T st)
    (hccur : alookup st.dist_from_start cur = some ccur)
    (hedge : nxt ∈ g.out_edges cur)
    (hlow : ∀ best, alookup st.dist_from_start nxt = some best →
      ccur + g.dist cur nxt < best)
    (hnxtS : nxt ∉ S) (hnxtcur : nxt ≠ cur) (hnxtstart : nxt ≠ start) :
    AInv g start isEnd h S P (fun x => if x = nxt then T else τ x) (T + 1)
      { to_explore := push_increase st.to_explore nxt
          (ccur + g.dist cur nxt + h nxt),
        prev := ainsert st.prev nxt cur,
        dist_from_start := ainsert st.dist_from_start nxt
          (ccur + g.dist cur nxt) } := by
  have hqcond : alookup st.to_explore nxt = none ∨
      ∃ pOld, alookup st.to_explore nxt = some pOld ∧
        ccur + g.dist cur nxt + h nxt < pOld := by
    cases hqn : alookup st.to_explore nxt with
    | none => exact Or.inl rfl
    | some pOld =>
      obtain ⟨best, hbest, hpOld⟩ := hinv.prio (nxt, pOld) (alookup_some_mem hqn)
      have hl := hlow best hbest
      have hp2 : pOld = best + h nxt := hpOld
      refine Or.inr ⟨pOld, rfl, ?_⟩
      omega
  refine ⟨?_, ?_, ?_, ?_, ?_, ?_, hinv.notGoal, ?_, ?_, ?_⟩
  · -- reach
    intro v c hc
    by_cases hv : v = nxt
    · subst hv
      rw [alookup_ainsert_self] at hc
      rw [← Option.some_injective _ hc]
      exact Reach.step (hinv.reach cur ccur hccur) hedge
    · rw [alookup_ainsert_ne _ _ hv] at hc
      exact hinv.reach v c hc
  · -- prio
    intro e he
    rcases mem_push_increase_update hqcond he with rfl | ⟨heq, hek⟩
    · exact ⟨ccur + g.dist cur nxt, alookup_ainsert_self _ _ _, rfl⟩
    · obtain ⟨cv, hcv, hpe⟩ := hinv.prio e heq
      exact ⟨cv, by rw [alookup_ainsert_ne _ _ hek]; exact hcv, hpe⟩
  · -- start0
    rw [alookup_ainsert_ne _ _ (fun hh : start = nxt => hnxtstart hh.symm)]
    exact hinv.start0
  · -- settled
    intro v hvP
    obtain ⟨cv, hcv, hmin⟩ := hinv.settled v hvP
    have hv : v ≠ nxt := fun hh => hnxtS (hh ▸ hvP)
    exact ⟨cv, by rw [alookup_ainsert_ne _ _ hv]; exact hcv, hmin⟩
  · -- relaxed
    intro v hvP cv hcv w hw
    have hv : v ≠ nxt := fun hh => hnxtS (hh ▸ hvP)
    rw [alookup_ainsert_ne _ _ hv] at hcv
    obtain ⟨cw, hcw, hle⟩ := hinv.relaxed v hvP cv hcv w hw
    by_cases hwn : w = nxt
    · subst hwn
      have hlt := hlow cw hcw
      refine ⟨ccur + g.dist cur w, alookup_ainsert_self _ _ _, ?_⟩
      omega
    · exact ⟨cw, by rw [alookup_ainsert_ne _ _ hwn]; exact hcw, hle⟩
  · -- inPQ
    intro v hsome
    by_cases hv : v = nxt
    · subst hv
      exact Or.inr ⟨(v, ccur + g.dist cur v + h v), push_increase_self hqcond, rfl⟩
    · rw [alookup_ainsert_ne _ _ hv] at hsome
      rcases hinv.inPQ v hsome with hP | ⟨e, he, hek⟩
      · exact Or.inl hP
      · exact Or.inr ⟨e, push_increase_keeps he (by rw [hek]; exact hv), hek⟩
  · -- prevLink
    intro b a hba
    by_cases hb : b = nxt
    · subst hb
      rw [alookup_ainsert_self] at hba
      have ha : a = cur := (Option.some_injective _ hba).symm
      subst ha
      refine ⟨hedge, ccur + g.dist a b, ccur, alookup_ainsert_self _ _ _,
        by rw [alookup_ainsert_ne _ _ (fun hh : a = b => hnxtcur hh.symm)]; exact hccur,
        Or.inr ⟨rfl, ?_⟩⟩
      rw [if_neg (fun hh : a = b => hnxtcur hh.symm), if_pos rfl]
      exact hinv.tauBound a (by rw [hccur]; rfl)
    · rw [alookup_ainsert_ne _ _ hb] at hba
      obtain ⟨hedge2, cb, ca, hcb, hca, hdisj⟩ := hinv.prevLink b a hba
      refine ⟨hedge2, cb, ?_⟩
      by_cases ha : a = nxt
      · subst ha
        have hlt := hlow ca hca
        refine ⟨ccur + g.dist cur a, by rw [alookup_ainsert_ne _ _ hb]; exact hcb,
          alookup_ainsert_self _ _ _, Or.inl ?_⟩
        rcases hdisj with hdisj | ⟨hdisj, _⟩ <;> omega
      · refine ⟨ca, by rw [alookup_ainsert_ne _ _ hb]; exact hcb,
          by rw [alookup_ainsert_ne _ _ ha]; exact hca, ?_⟩
        rw [if_neg ha, if_neg hb]
        exact hdisj
  · -- prevKeys
    intro v
    by_cases hv : v = nxt
    · subst hv
      constructor
      · intro _
        exact ⟨by rw [alookup_ainsert_self]; rfl, hnxtstart⟩
      · intro _
        rw [alookup_ainsert_self]
        rfl
    · rw [show alookup (ainsert st.prev nxt cur) v = alookup st.prev v from
        alookup_ainsert_ne _ _ hv,
        show alookup (ainsert st.dist_from_start nxt (ccur + g.dist cur nxt)) v =
          alookup st.dist_from_start v from alookup_ainsert_ne _ _ hv]
      exact hinv.prevKeys v
  · -- tauBound
    intro v hsome
    by_cases hv : v = nxt
    · rw [if_pos hv]
      omega
    · rw [if_neg hv]
      rw [alookup_ainsert_ne _ _ hv] at hsome
      have := hinv.tauBound v hsome
      omega

theorem aRelax_inv {g : VGraph N ℕ} {start : N} {isEnd : N → Bool} {h : N → ℕ}
    {S P : Finset N} (cur : N) :
    ∀ (nexts : List N) (st : AState N ℕ) (τ : N → ℕ) (T : ℕ) (ccur : ℕ),
      AInv g start isEnd h S P τ T st →
      alookup st.dist_from_start cur = some ccur →
      (∀ w ∈ nexts, w ∈ g.out_edges cur) →
      ∃ st2 τ2 T2, aRelax g h cur nexts st = some st2 ∧
        AInv g start isEnd h S P τ2 T2 st2 ∧
        alookup st2.dist_from_start cur = some ccur ∧
        ∀ w ∈ nexts, ∃ cw, alookup st2.dist_from_start w = some cw ∧
          cw ≤ ccur + g.dist cur w := by
  intro nexts
  induction nexts with
  | nil =>
    intro st τ T ccur hinv hccur _
    exact ⟨st, τ, T, rfl, hinv, hccur, fun w hw => absurd hw (List.not_mem_nil w)⟩
  | cons nxt rest ih =>
    intro st τ T ccur hinv hccur hedges
    have hedge : nxt ∈ g.out_edges cur := hedges nxt (List.mem_cons_self nxt rest)
    have hrestE : ∀ w ∈ rest, w ∈ g.out_edges cur :=
      fun w hw => hedges w (List.mem_cons_of_mem nxt hw)
    cases hnxt : alookup st.dist_from_start nxt with
    | some best =>
      by_cases hle : best ≤ ccur + g.dist cur nxt
      · obtain ⟨st2, τ2, T2, hrel, hinv2, hccur2, hpost⟩ :=
          ih st τ T ccur hinv hccur hrestE
        refine ⟨st2, τ2, T2, ?_, hinv2, hccur2, ?_⟩
        · simp only [aRelax, hccur, hnxt]
          rw [if_pos (by simpa using hle)]
          exact hrel
        · intro w hw
          rcases List.mem_cons.mp hw with hw | hw
          · subst hw
            obtain ⟨c2, hc2, hc2le⟩ := aRelax_mono g h cur rest st st2 hrel w best hnxt
            exact ⟨c2, hc2, by omega⟩
          · exact hpost w hw
      · have hup : ccur + g.dist cur nxt < best := lt_of_not_le hle
        have hnxtS : nxt ∉ S := by
          intro hP
          obtain ⟨cb, hcb, hmin⟩ := hinv.settled nxt hP
          have hbe : cb = best := Option.some_injective _ (hcb.symm.trans hnxt)
          have hreach2 : Reach g start nxt (ccur + g.dist cur nxt) :=
            Reach.step (hinv.reach cur ccur hccur) hedge
          have := hmin _ hreach2
          omega
        have hnxtcur : nxt ≠ cur := by
          intro hh
          rw [hh, hccur] at hnxt
          have : best = ccur := (Option.some_injective _ hnxt).symm
          omega
        have hnxtstart : nxt ≠ start := by
          intro hh
          rw [hh, hinv.start0] at hnxt
          have : best = 0 := (Option.some_injective _ hnxt).symm
          omega
        have hlow : ∀ b2, alookup st.dist_from_start nxt = some b2 →
            ccur + g.dist cur nxt < b2 := by
          intro b2 hb2
          have : b2 = best := Option.some_injective _ (hb2.symm.trans hnxt)
          omega
        have hinvU := aRelax_inv_update hinv hccur hedge hlow hnxtS hnxtcur hnxtstart
        have hccurU : alookup (ainsert st.dist_from_start nxt
            (ccur + g.dist cur nxt)) cur = some ccur := by
          rw [alookup_ainsert_ne _ _ (fun hh : cur = nxt => hnxtcur hh.symm)]
          exact hccur
        obtain ⟨st2, τ2, T2, hrel, hinv2, hccur2, hpost⟩ :=
          ih _ _ _ ccur hinvU hccurU hrestE
        refine ⟨st2, τ2, T2, ?_, hinv2, hccur2, ?_⟩
        · simp only [aRelax, hccur, hnxt]
          rw [if_neg (by simpa using hle), if_pos (by simpa using hup)]
          exact hrel
        · intro w hw
          rcases List.mem_cons.mp hw with hw | hw
          · subst hw
            obtain ⟨c2, hc2, hc2le⟩ := aRelax_mono g h cur rest _ st2 hrel w
              (ccur + g.dist cur w) (alookup_ainsert_self _ _ _)
            exact ⟨c2, hc2, hc2le⟩
          · exact hpost w hw
    | none =>
      have hnxtS : nxt ∉ S := by
        intro hP
        obtain ⟨cb, hcb, _⟩ := hinv.settled nxt hP
        rw [hnxt] at hcb
        cases hcb
      have hnxtcur : nxt ≠ cur := by
        intro hh
        rw [hh, hccur] at hnxt
        cases hnxt
      have hnxtstart : nxt ≠ start := by
        intro hh
        rw [hh, hinv.start0] at hnxt
        cases hnxt
      have hlow : ∀ b2, alookup st.dist_from_start nxt = some b2 →
          ccur + g.dist cur nxt < b2 := by
        intro b2 hb2
        rw [hnxt] at hb2
        cases hb2
      have hinvU := aRelax_inv_update hinv hccur hedge hlow hnxtS hnxtcur hnxtstart
      have hccurU : alookup (ainsert st.dist_from_start nxt
          (ccur + g.dist cur nxt)) cur = some ccur := by
        rw [alookup_ainsert_ne _ _ (fun hh : cur = nxt => hnxtcur hh.symm)]
        exact hccur
      obtain ⟨st2, τ2, T2, hrel, hinv2, hccur2, hpost⟩ :=
        ih _ _ _ ccur hinvU hccurU hrestE
      refine ⟨st2, τ2, T2, ?_, hinv2, hccur2, ?_⟩
      · simp only [aRelax, hccur, hnxt]
        rw [if_neg (by simp), if_pos (by simp)]
        exact hrel
      · intro w hw
        rcases List.mem_cons.mp hw with hw | hw
        · subst hw
          obtain ⟨c2, hc2, hc2le⟩ := aRelax_mono g h cur rest _ st2 hrel w
            (ccur + g.dist cur w) (alookup_ainsert_self _ _ _)
          exact ⟨c2, hc2, hc2le⟩
        · exact hpost w hw

theorem aStep_inv {g : VGraph N ℕ} {start : N} {isEnd : N → Bool} {h : N → ℕ}
    {P : Finset N} {τ : N → ℕ} {T : ℕ} {st st2 : AState N ℕ}
    (hcons : Consistent g h) (hinv : AInv g start isEnd h P P τ T st)
    (hstep : aStep g isEnd h st = StepRes.next st2) :
    ∃ P2 τ2 T2, AInv g start isEnd h P2 P2 τ2 T2 st2 := by
  cases hq : qPop st.to_explore with
  | none =>
    simp only [aStep, hq] at hstep
    cases hstep
  | some pr =>
    obtain ⟨cp, q2⟩ := pr
    simp only [aStep, hq] at hstep
    by_cases hend : isEnd cp.1 = true
    · rw [if_pos hend] at hstep
      cases hstep
    · rw [if_neg hend] at hstep
      obtain ⟨cv, hcv, hminR⟩ := AInv_pop_optimal hinv hcons hq
      have hsub := qPop_sub hq
      have hrest := qPop_rest hq
      have hmid : AInv g start isEnd h P (insert cp.1 P) τ T
          { st with to_explore := q2 } := by
        refine ⟨hinv.reach, fun e he => hinv.prio e (hsub e he), hinv.start0,
          hinv.settled, hinv.relaxed, ?_, ?_, hinv.prevLink, hinv.prevKeys,
          hinv.tauBound⟩
        · intro v hsome
          rcases hinv.inPQ v hsome with hP | ⟨e, he, hek⟩
          · exact Or.inl (Finset.mem_insert_of_mem hP)
          · by_cases hecp : e.1 = cp.1
            · exact Or.inl (by rw [← hek, hecp]; exact Finset.mem_insert_self _ _)
            · refine Or.inr ⟨e, ?_, hek⟩
              rw [hrest]
              exact mem_aerase_of_ne he hecp
        · intro v hv
          rcases Finset.mem_insert.mp hv with hv | hv
          · rw [hv]
            rw [Bool.not_eq_true] at hend
            exact hend
          · exact hinv.notGoal v hv
      obtain ⟨st3, τ2, T2, hrel, hinv2, hccur2, hpost⟩ :=
        aRelax_inv cp.1 (g.out_edges cp.1) { st with to_explore := q2 } τ T cv
          hmid hcv (fun w hw => hw)
      rw [hrel] at hstep
      cases hstep
      refine ⟨insert cp.1 P, τ2, T2,
        ⟨hinv2.reach, hinv2.prio, hinv2.start0, ?_, ?_, hinv2.inPQ, hinv2.notGoal,
          hinv2.prevLink, hinv2.prevKeys, hinv2.tauBound⟩⟩
      · intro v hv
        rcases Finset.mem_insert.mp hv with hv | hv
        · rw [hv]
          exact ⟨cv, hccur2, hminR.2⟩
        · exact hinv2.settled v hv
      · intro v hv cv2 hcv2 w hw
        rcases Finset.mem_insert.mp hv with hv | hv
        · subst hv
          have hveq : cv2 = cv := Option.some_injective _ (hcv2.symm.trans hccur2)
          obtain ⟨cw, hcw, hle⟩ := hpost w hw
          exact ⟨cw, hcw, by omega⟩
        · exact hinv2.relaxed v hv cv2 hcv2 w hw

theorem aInit_inv {g : VGraph N ℕ} {start : N} {isEnd : N → Bool} {h : N → ℕ} :
    AInv g start isEnd h ∅ ∅ (fun _ => 0) 1 (aInit start h) := by
  have hqueue : (aInit (D := ℕ) start h).to_explore = [(start, h start)] := rfl
  have hdm : (aInit (D := ℕ) start h).dist_from_start = [(start, 0)] := rfl
  have hlk : ∀ v, alookup [(start, (0 : ℕ))] v =
      if start = v then some 0 else none := by
    intro v
    rw [alookup]
    by_cases hv : start = v
    · rw [if_pos hv, if_pos hv]
    · rw [if_neg hv, if_neg hv]
      rfl
  refine ⟨?_, ?_, ?_, ?_, ?_, ?_, ?_, ?_, ?_, ?_⟩
  · intro v c hc
    rw [hdm, hlk] at hc
    by_cases hv : start = v
    · rw [if_pos hv] at hc
      rw [← hv, ← Option.some_injective _ hc]
      exact Reach.refl
    · rw [if_neg hv] at hc
      cases hc
  · intro e he
    rw [hqueue] at he
    rw [List.mem_singleton.mp he]
    refine ⟨0, ?_, (zero_add _).symm⟩
    rw [hdm, hlk, if_pos rfl]
  · rw [hdm, hlk, if_pos rfl]
  · intro v hv
    exact absurd hv (Finset.not_mem_empty v)
  · intro v hv
    exact absurd hv (Finset.not_mem_empty v)
  · intro v hsome
    rw [hdm, hlk] at hsome
    by_cases hv : start = v
    · refine Or.inr ⟨(start, h start), ?_, hv⟩
      rw [hqueue]
      exact List.mem_singleton.mpr rfl
    · rw [if_neg hv] at hsome
      cases hsome
  · intro v hv
    exact absurd hv (Finset.not_mem_empty v)
  · intro b a hba
    cases hba
  · intro v
    constructor
    · intro hsome
      cases hsome
    · intro ⟨hsome, hne⟩
      rw [hdm, hlk] at hsome
      rw [if_neg (fun hh : start = v => hne hh.symm)] at hsome
      cases hsome
  · intro v _
    omega

theorem aIter_inv {g : VGraph N ℕ} {start : N} {isEnd : N → Bool} {h : N → ℕ}
    (hcons : Consistent g h) :
    ∀ n : ℕ, ∃ P τ T, AInv g start isEnd h P P τ T
      (aIter g isEnd h n (aInit start h)) := by
  intro n
  induction n with
  | zero => exact ⟨∅, fun _ => 0, 1, aInit_inv⟩
  | succ n ih =>
    obtain ⟨P, τ, T, hinv⟩ := ih
    rw [aIter_succ]
    cases hstep : aStep g isEnd h (aIter g isEnd h n (aInit start h)) with
    | halt r =>
      rw [show aStepF g isEnd h (aIter g isEnd h n (aInit start h)) =
        aIter g isEnd h n (aInit start h) by rw [aStepF, hstep]]
      exact ⟨P, τ, T, hinv⟩
    | next st2 =>
      rw [show aStepF g isEnd h (aIter g isEnd h n (aInit start h)) = st2 by
        rw [aStepF, hstep]]
      exact aStep_inv hcons hinv hstep

theorem settled_value_frozen {g : VGraph N ℕ} {start : N} {isEnd : N → Bool}
    {h : N → ℕ} (hcons : Consistent g h) :
    ∀ (n m : ℕ), n ≤ m → ∀ (v : N) (cv : ℕ),
      alookup (aIter g isEnd h n (aInit start h)).dist_from_start v = some cv →
      IsMinReach g start v cv →
      alookup (aIter g isEnd h m (aInit start h)).dist_from_start v = some cv := by
  intro n m hnm v cv hcv hmin
  induction m, hnm using Nat.le_induction with
  | base => exact hcv
  | succ m _ ih =>
    rw [aIter_succ]
    cases hstep : aStep g isEnd h (aIter g isEnd h m (aInit start h)) with
    | halt r =>
      rw [show aStepF g isEnd h (aIter g isEnd h m (aInit start h)) =
        aIter g isEnd h m (aInit start h) by rw [aStepF, hstep]]
      exact ih
    | next st2 =>
      rw [show aStepF g isEnd h (aIter g isEnd h m (aInit start h)) = st2 by
        rw [aStepF, hstep]]
      obtain ⟨c2, hc2, hle⟩ := aStep_mono g isEnd h hstep v cv ih
      obtain ⟨P, τ, T, hinv⟩ := @aIter_inv N _ g start isEnd h hcons (m + 1)
      rw [aIter_succ, show aStepF g isEnd h (aIter g isEnd h m (aInit start h)) =
        st2 by rw [aStepF, hstep]] at hinv
      have hr2 := hinv.reach v c2 hc2
      have := hmin.2 c2 hr2
      rw [hc2]
      congr 1
      omega

/-- C6: along any run of `a_star_search`, an existing entry of the
distance-from-start map is only ever replaced by a strictly smaller value
(so successive values never increase), and — with the (automatically
non-negative) heuristic consistent — once a node is removed from the open
set, its stored distance is final: it is never changed at any later point of
the run. -/
theorem c6_dist_map_improves_and_settles {N : Type} [DecidableEq N]
    (g : VGraph N ℕ) (start : N) (isEnd : N → Bool) (h : N → ℕ) :
    (∀ (n : ℕ) (v : N) (c c2 : ℕ),
      alookup (aIter g isEnd h n (aInit start h)).dist_from_start v = some c →
      alookup (aIter g isEnd h (n + 1) (aInit start h)).dist_from_start v =
        some c2 →
      c2 ≤ c) ∧
    (Consistent g h →
      ∀ (n : ℕ) (cp : N × ℕ) (q2 : List (N × ℕ)),
        qPop (aIter g isEnd h n (aInit start h)).to_explore = some (cp, q2) →
        ∀ m, n ≤ m →
          alookup (aIter g isEnd h m (aInit start h)).dist_from_start cp.1 =
          alookup (aIter g isEnd h n (aInit start h)).dist_from_start cp.1) := by
  constructor
  · intro n v c c2 hc hc2
    rw [aIter_succ] at hc2
    cases hstep : aStep g isEnd h (aIter g isEnd h n (aInit start h)) with
    | halt r =>
      rw [show aStepF g isEnd h (aIter g isEnd h n (aInit start h)) =
        aIter g isEnd h n (aInit start h) by rw [aStepF, hstep]] at hc2
      rw [hc] at hc2
      rw [Option.some_injective _ hc2]
    | next st2 =>
      rw [show aStepF g isEnd h (aIter g isEnd h n (aInit start h)) = st2 by
        rw [aStepF, hstep]] at hc2
      obtain ⟨c3, hc3, hle⟩ := aStep_mono g isEnd h hstep v c hc
      rw [hc3] at hc2
      rw [← Option.some_injective _ hc2]
      exact hle
  · intro hcons n cp q2 hq m hnm
    obtain ⟨P, τ, T, hinv⟩ := @aIter_inv N _ g start isEnd h hcons n
    obtain ⟨cv, hcv, hmin⟩ := AInv_pop_optimal hinv hcons hq
    rw [settled_value_frozen hcons n m hnm cp.1 cv hcv hmin, hcv]

theorem c6_witness :
    (∀ (n : ℕ) (v : ℕ) (c c2 : ℕ),
      alookup (aIter gEx (fun n => n == 3) (fun _ => 0) n
        (aInit 1 (fun _ => 0))).dist_from_start v = some c →
      alookup (aIter gEx (fun n => n == 3) (fun _ => 0) (n + 1)
        (aInit 1 (fun _ => 0))).dist_from_start v = some c2 →
      c2 ≤ c) ∧
    (Consistent gEx (fun _ => 0) →
      ∀ (n : ℕ) (cp : ℕ × ℕ) (q2 : List (ℕ × ℕ)),
        qPop (aIter gEx (fun n => n == 3) (fun _ => 0) n
          (aInit 1 (fun _ => 0))).to_explore = some (cp, q2) →
        ∀ m, n ≤ m →
          alookup (aIter gEx (fun n => n == 3) (fun _ => 0) m
            (aInit 1 (fun _ => 0))).dist_from_start cp.1 =
          alookup (aIter gEx (fun n => n == 3) (fun _ => 0) n
            (aInit 1 (fun _ => 0))).dist_from_start cp.1) :=
  c6_dist_map_improves_and_settles gEx 1 (fun n => n == 3) (fun _ => 0)

/-! ### C4: walk decomposition and back_track extraction -/

theorem qPop_eq_none {D : Type} [LinearOrder D] {q : List (N × D)}
    (hq : qPop q = none) : q = [] := by
  cases q with
  | nil => rfl
  | cons x rest =>
    obtain ⟨b, hb⟩ := qBest_isSome x rest
    simp only [qPop, hb] at hq
    cases hq

theorem getLast?_snoc {A : Type} (v : A) (q : List A) :
    (q ++ [v]).getLast? = some v := by
  induction q with
  | nil => rfl
  | cons x t ih =>
    rw [List.cons_append]
    cases ht : t ++ [v] with
    | nil => exact absurd ht (by simp)
    | cons y t2 =>
      rw [List.getLast?_cons_cons, ← ht]
      exact ih

theorem getLast?_cons_isSome {A : Type} :
    ∀ (t : List A) (x : A), ∃ u, (x :: t).getLast? = some u := by
  intro t
  induction t with
  | nil => intro x; exact ⟨x, rfl⟩
  | cons y t2 ih =>
    intro x
    obtain ⟨u, hu⟩ := ih y
    exact ⟨u, by rw [List.getLast?_cons_cons]; exact hu⟩

theorem windows2_snoc :
    ∀ (q : List N) (u v : N), q.getLast? = some u →
      windows2 (q ++ [v]) = windows2 q ++ [(u, v)] := by
  intro q
  induction q with
  | nil => intro u v hu; cases hu
  | cons x t ih =>
    intro u v hu
    cases t with
    | nil =>
      cases hu
      rfl
    | cons y t2 =>
      rw [List.getLast?_cons_cons] at hu
      show (x, y) :: windows2 ((y :: t2) ++ [v]) =
        ((x, y) :: windows2 (y :: t2)) ++ [(u, v)]
      rw [ih u v hu, List.cons_append]

theorem path_length_eq_sum {D : Type} [AddMonoid D] (g : VGraph N D)
    (q : List N) :
    path_length g q = ((windows2 q).map (fun e => g.dist e.1 e.2)).sum := by
  have hh := foldl_add_eq_sum (fun e : N × N => g.dist e.1 e.2) (windows2 q)
  exact hh

theorem path_length_snoc {D : Type} [AddMonoid D] (g : VGraph N D)
    {q : List N} {u : N} (v : N) (hu : q.getLast? = some u) :
    path_length g (q ++ [v]) = path_length g q + g.dist u v := by
  rw [path_length_eq_sum, path_length_eq_sum, windows2_snoc q u v hu,
    List.map_append, List.sum_append]
  simp

theorem IsWalk_snoc_iff {D : Type} (g : VGraph N D) :
    ∀ (q : List N) (u v : N), q.getLast? = some u →
      (IsWalk g (q ++ [v]) ↔ (IsWalk g q ∧ v ∈ g.out_edges u)) := by
  intro q
  induction q with
  | nil => intro u v hu; cases hu
  | cons x t ih =>
    intro u v hu
    cases t with
    | nil =>
      cases hu
      show (v ∈ g.out_edges x ∧ IsWalk g [v]) ↔ (IsWalk g [x] ∧ v ∈ g.out_edges x)
      constructor
      · intro hh
        exact ⟨trivial, hh.1⟩
      · intro hh
        exact ⟨hh.2, trivial⟩
    | cons y t2 =>
      rw [List.getLast?_cons_cons] at hu
      show (y ∈ g.out_edges x ∧ IsWalk g ((y :: t2) ++ [v])) ↔
        ((y ∈ g.out_edges x ∧ IsWalk g (y :: t2)) ∧ v ∈ g.out_edges u)
      rw [ih u v hu]
      constructor
      · intro hh
        exact ⟨⟨hh.1, hh.2.1⟩, hh.2.2⟩
      · intro hh
        exact ⟨hh.1.1, hh.1.2, hh.2⟩

theorem reach_of_walk (g : VGraph N ℕ) (s : N) :
    ∀ (p : List N), IsWalk g p → p.head? = some s →
      ∀ v, p.getLast? = some v → Reach g s v (path_length g p) := by
  intro p
  induction p using List.reverseRecOn with
  | nil =>
    intro hwalk
    exact absurd hwalk (fun hh => hh)
  | append_singleton q v2 ih =>
    intro hwalk hhead v hlast
    rw [getLast?_snoc] at hlast
    cases hlast
    cases q with
    | nil =>
      have hv : v2 = s := Option.some_injective _ hhead
      subst hv
      show Reach g v2 v2 (path_length g [v2])
      exact Reach.refl
    | cons x t =>
      obtain ⟨u, hu⟩ := getLast?_cons_isSome t x
      rw [IsWalk_snoc_iff g (x :: t) u v2 hu] at hwalk
      have hhead2 : (x :: t).head? = some s := by
        rw [List.cons_append] at hhead
        exact hhead
      have hreach := ih hwalk.1 hhead2 u hu
      rw [path_length_snoc g v2 hu]
      exact Reach.step hreach hwalk.2

theorem backTrack_extract {g : VGraph N ℕ} {start : N} {isEnd : N → Bool}
    {h : N → ℕ} {P : Finset N} {τ : N → ℕ} {T : ℕ} {st : AState N ℕ}
    (hinv : AInv g start isEnd h P P τ T st) :
    ∀ (r : ℕ) (b : N) (cb : ℕ),
      alookup st.dist_from_start b = some cb → cb * T + τ b ≤ r →
      ∃ fuel p, (∀ acc, backTrackGo st.prev fuel b acc = some (p ++ acc)) ∧
        p ≠ [] ∧ p.head? = some start ∧ p.getLast? = some b ∧
        IsWalk g p ∧ path_length g p ≤ cb := by
  intro r
  induction r using Nat.strong_induction_on with
  | _ r ih =>
    intro b cb hcb hrank
    cases hba : alookup st.prev b with
    | none =>
      have hb : b = start := by
        by_cases hbs : b = start
        · exact hbs
        · have := (hinv.prevKeys b).mpr ⟨by rw [hcb]; rfl, hbs⟩
          rw [hba] at this
          cases this
      subst hb
      refine ⟨0, [b], ?_, by simp, rfl, rfl, trivial, ?_⟩
      · intro acc
        show (match alookup st.prev b with
          | none => some (b :: acc)
          | some _ => none) = some (b :: acc)
        rw [hba]
      · show (0 : ℕ) ≤ cb
        omega
    | some a =>
      obtain ⟨hedge, cb2, ca, hcb2, hca, hdisj⟩ := hinv.prevLink b a hba
      have hcbe : cb2 = cb := Option.some_injective _ (hcb2.symm.trans hcb)
      subst hcbe
      have htaua : τ a < T := hinv.tauBound a (by rw [hca]; rfl)
      have htaub : τ b < T := hinv.tauBound b (by rw [hcb]; rfl)
      have hrank2 : ca * T + τ a < cb2 * T + τ b := by
        rcases hdisj with hdisj | ⟨_, hdisj⟩
        · have hca2 : ca < cb2 := by omega
          have h3 : (ca + 1) * T ≤ cb2 * T := Nat.mul_le_mul_right T hca2
          rw [Nat.succ_mul] at h3
          omega
        · have hca2 : ca ≤ cb2 := by omega
          have : ca * T ≤ cb2 * T := Nat.mul_le_mul_right T hca2
          omega
      obtain ⟨fuel, p, hgo, hne, hhead, hlast, hwalk, hlen⟩ :=
        ih (ca * T + τ a) (by omega) a ca hca (le_refl _)
      refine ⟨fuel + 1, p ++ [b], ?_, by simp, ?_, getLast?_snoc b p, ?_, ?_⟩
      · intro acc
        have hstep2 : backTrackGo st.prev (fuel + 1) b acc =
            backTrackGo st.prev fuel a (b :: acc) := by
          show (match alookup st.prev b with
            | none => some (b :: acc)
            | some nxt => backTrackGo st.prev fuel nxt (b :: acc)) =
            backTrackGo st.prev fuel a (b :: acc)
          rw [hba]
        rw [hstep2, hgo (b :: acc), List.append_assoc]
        rfl
      · cases p with
        | nil => exact absurd rfl hne
        | cons x t => exact hhead
      · rw [IsWalk_snoc_iff g p a b hlast]
        exact ⟨hwalk, hedge⟩
      · rw [path_length_snoc g b hlast]
        rcases hdisj with hdisj | ⟨hdisj, _⟩ <;> omega

theorem aLoop_run {g : VGraph N ℕ} {start : N} (isEnd : N → Bool) (h : N → ℕ)
    (R : Finset N) (hclosed : ∀ v ∈ R, ∀ w ∈ g.out_edges v, w ∈ R)
    (hcons : Consistent g h) :
    ∀ (a b cc : ℕ) (st : AState N ℕ),
      (R \ akeys st.dist_from_start).card ≤ a → dsum st.dist_from_start ≤ b →
      st.to_explore.length ≤ cc → AWf R st →
      (∃ P τ T, AInv g start isEnd h P P τ T st) →
      (∃ f st2 P τ T, aLoop g isEnd h f st = some AOut.notFound ∧
        AInv g start isEnd h P P τ T st2 ∧ st2.to_explore = []) ∨
      (∃ f st2 P τ T cp q2, aLoop g isEnd h f st =
          some (AOut.found st2.prev cp.1) ∧
        AInv g start isEnd h P P τ T st2 ∧
        qPop st2.to_explore = some (cp, q2) ∧ isEnd cp.1 = true) := by
  intro a
  induction a using Nat.strong_induction_on with
  | _ a iha =>
    intro b
    induction b using Nat.strong_induction_on with
    | _ b ihb =>
      intro cc
      induction cc using Nat.strong_induction_on with
      | _ cc ihc =>
        intro st ha hb hc hwf hinvE
        obtain ⟨P, τ, T, hinv⟩ := hinvE
        obtain ⟨hqR, hkR, hcov, hnd⟩ := hwf
        cases hqpop : qPop st.to_explore with
        | none =>
          refine Or.inl ⟨1, st, P, τ, T, ?_, hinv, qPop_eq_none hqpop⟩
          simp [aLoop, aStep, hqpop]
        | some pr =>
          obtain ⟨cp, q2⟩ := pr
          by_cases hend : isEnd cp.1 = true
          · refine Or.inr ⟨1, st, P, τ, T, cp, q2, ?_, hinv, hqpop, hend⟩
            simp [aLoop, aStep, hqpop, hend]
          · have hcpmem : cp ∈ st.to_explore := qPop_mem hqpop
            have hcpR : cp.1 ∈ R := hqR cp hcpmem
            have hsub := qPop_sub hqpop
            have hwf2 : AWf R { st with to_explore := q2 } :=
              ⟨fun e he => hqR e (hsub e he), hkR, fun e he => hcov e (hsub e he), hnd⟩
            have hcur : (alookup st.dist_from_start cp.1).isSome = true := hcov cp hcpmem
            obtain ⟨st2, hrel, hwf3, hdec⟩ :=
              aRelax_term g h cp.1 R (g.out_edges cp.1) { st with to_explore := q2 }
                (hclosed cp.1 hcpR) hwf2 hcur
            have hstep : aStep g isEnd h st = StepRes.next st2 := by
              simp only [aStep, hqpop]
              rw [if_neg hend, hrel]
            obtain ⟨P2, τ2, T2, hinv2⟩ := aStep_inv hcons hinv hstep
            have hpre : ∀ (f : ℕ) (r : AOut N), aLoop g isEnd h f st2 = some r →
                aLoop g isEnd h (f + 1) st = some r := by
              intro f r hf
              simp only [aLoop, aStep, hqpop]
              rw [if_neg hend, hrel]
              exact hf
            have hq2len : q2.length < st.to_explore.length := by
              rw [qPop_rest hqpop]
              exact aerase_length_lt ⟨cp, hcpmem, rfl⟩
            have hrun :
                (∃ f st3 P3 τ3 T3, aLoop g isEnd h f st2 = some AOut.notFound ∧
                  AInv g start isEnd h P3 P3 τ3 T3 st3 ∧ st3.to_explore = []) ∨
                (∃ f st3 P3 τ3 T3 cp3 q3, aLoop g isEnd h f st2 =
                    some (AOut.found st3.prev cp3.1) ∧
                  AInv g start isEnd h P3 P3 τ3 T3 st3 ∧
                  qPop st3.to_explore = some (cp3, q3) ∧ isEnd cp3.1 = true) := by
              have hdm : ({ st with to_explore := q2 } : AState N ℕ).dist_from_start =
                  st.dist_from_start := rfl
              rcases hdec with hdec | hdec
              · rcases hdec with hlt | ⟨heq, hlt⟩
                · rw [hdm] at hlt
                  exact iha _ (lt_of_lt_of_le hlt ha) (dsum st2.dist_from_start)
                    st2.to_explore.length st2 (le_refl _) (le_refl _) (le_refl _)
                    hwf3 ⟨P2, τ2, T2, hinv2⟩
                · rw [hdm] at heq hlt
                  have hblt : dsum st2.dist_from_start < b := lt_of_lt_of_le hlt hb
                  exact ihb _ hblt st2.to_explore.length st2 (by omega) (le_refl _)
                    (le_refl _) hwf3 ⟨P2, τ2, T2, hinv2⟩
              · have hclt : st2.to_explore.length < cc := by
                  rw [hdec]
                  show q2.length < cc
                  omega
                refine ihc _ hclt st2 ?_ ?_ (le_refl _) hwf3 ⟨P2, τ2, T2, hinv2⟩
                · rw [hdec]
                  show (R \ akeys st.dist_from_start).card ≤ a
                  exact ha
                · rw [hdec]
                  show dsum st.dist_from_start ≤ b
                  exact hb
            rcases hrun with ⟨f, st3, P3, τ3, T3, heq, hinv3, hempty⟩ |
              ⟨f, st3, P3, τ3, T3, cp3, q3, heq, hinv3, hq3, hend3⟩
            · exact Or.inl ⟨f + 1, st3, P3, τ3, T3, hpre f _ heq, hinv3, hempty⟩
            · exact Or.inr ⟨f + 1, st3, P3, τ3, T3, cp3, q3, hpre f _ heq, hinv3,
                hq3, hend3⟩

theorem aInit_awf {start : N} {h : N → ℕ} (R : Finset N) (hstart : start ∈ R) :
    AWf R (aInit (D := ℕ) start h) := by
  refine ⟨?_, ?_, aInit_cov start h, ?_⟩
  · intro e he
    simp only [aInit, push_increase, alookup, List.nil_append] at he
    rw [List.mem_singleton.mp he]
    exact hstart
  · show akeys (ainsert [] start 0) ⊆ R
    rw [akeys_ainsert]
    refine Finset.insert_subset_iff.mpr ⟨hstart, ?_⟩
    intro x hx
    simp [akeys] at hx
  · show ((ainsert ([] : List (N × ℕ)) start 0).map Prod.fst).Nodup
    simp [ainsert, aerase]

/-- C4: with the constant-zero heuristic and natural-number (hence
non-negative) edge distances, on any graph whose reachable nodes lie in a
finite set `R` closed under `out_edges`, `a_star_search` agrees with the
reference Dijkstra computation modelled from the spec: it returns `None`
exactly when Dijkstra finds no goal-satisfying node, and otherwise returns a
path that really walks the graph from `start` to a goal-satisfying node and
whose `path_length` equals Dijkstra's shortest-path cost to the nearest
goal-satisfying node. -/
theorem c4_zero_heuristic_is_dijkstra {N : Type} [DecidableEq N]
    (g : VGraph N ℕ) (start : N) (isEnd : N → Bool) (R : Finset N)
    (hstart : start ∈ R)
    (hclosed : ∀ v ∈ R, ∀ w ∈ g.out_edges v, w ∈ R) :
    (dijkstraSpec g start isEnd none →
      ∃ f, ∀ b, a_star_search g start isEnd (fun _ => 0) f b = some none) ∧
    (∀ c, dijkstraSpec g start isEnd (some c) →
      ∃ f b p, a_star_search g start isEnd (fun _ => 0) f b = some (some p) ∧
        p.head? = some start ∧
        (∃ e, p.getLast? = some e ∧ isEnd e = true) ∧
        IsWalk g p ∧ path_length g p = c) := by
  have hcons : Consistent g (fun _ : N => (0 : ℕ)) := fun u w _ => Nat.zero_le _
  have hrun := @aLoop_run N _ g start isEnd (fun _ => 0) R hclosed
    hcons ((R \ akeys (aInit (D := ℕ) start fun _ => 0).dist_from_start).card)
    (dsum (aInit (D := ℕ) start fun _ => 0).dist_from_start)
    ((aInit (D := ℕ) start fun _ => 0).to_explore.length)
    (aInit start fun _ => 0) (le_refl _) (le_refl _) (le_refl _)
    (aInit_awf R hstart) ⟨∅, fun _ => 0, 1, aInit_inv⟩
  constructor
  · intro hnone
    rcases hrun with ⟨f, st3, P3, τ3, T3, heq, hinv3, hempty⟩ |
      ⟨f, st3, P3, τ3, T3, cp, q2, heq, hinv3, hq3, hend3⟩
    · refine ⟨f, fun b => ?_⟩
      simp [a_star_search, heq]
    · exfalso
      have hcpmem := qPop_mem hq3
      obtain ⟨cv, hcv, _⟩ := hinv3.prio cp hcpmem
      exact hnone cp.1 cv hend3 (hinv3.reach cp.1 cv hcv)
  · intro c hsome
    have hsome2 : (∃ v, isEnd v = true ∧ Reach g start v c) ∧
        (∀ v c2, isEnd v = true → Reach g start v c2 → c ≤ c2) := hsome
    obtain ⟨⟨w, hwEnd, hwReach⟩, hmin⟩ := hsome2
    rcases hrun with ⟨f, st3, P3, τ3, T3, heq, hinv3, hempty⟩ |
      ⟨f, st3, P3, τ3, T3, cp, q2, heq, hinv3, hq3, hend3⟩
    · exfalso
      have hwP : w ∉ P3 := by
        intro hP
        rw [hinv3.notGoal w hP] at hwEnd
        cases hwEnd
      obtain ⟨e, he, _⟩ := AInv_cover hinv3 hcons w c hwReach hwP
      rw [hempty] at he
      exact absurd he (List.not_mem_nil e)
    · obtain ⟨cv, hcv, hminR⟩ := AInv_pop_optimal hinv3 hcons hq3
      -- the popped goal is nearest: cv ≤ c
      have hwP : w ∉ P3 := by
        intro hP
        rw [hinv3.notGoal w hP] at hwEnd
        cases hwEnd
      obtain ⟨e, he, ce, hce, hbound⟩ := AInv_cover hinv3 hcons w c hwReach hwP
      have hple := qPop_min hq3 e he
      obtain ⟨cv2, hcv2, hpcp⟩ := hinv3.prio cp (qPop_mem hq3)
      have hcve : cv2 = cv := Option.some_injective _ (hcv2.symm.trans hcv)
      obtain ⟨ce2, hce2, hpe⟩ := hinv3.prio e he
      have hcee : ce2 = ce := Option.some_injective _ (hce2.symm.trans hce)
      have hbound2 : ce + 0 ≤ c + 0 := hbound
      have hpcp2 : cp.2 = cv2 + 0 := hpcp
      have hpe2 : e.2 = ce2 + 0 := hpe
      have hcvc : cv ≤ c := by omega
      have hccv : c ≤ cv := hmin cp.1 cv hend3 (hinv3.reach cp.1 cv hcv)
      obtain ⟨fuel, p, hgo, hne, hhead, hlast, hwalk, hlen⟩ :=
        backTrack_extract hinv3 (cv * T3 + τ3 cp.1) cp.1 cv hcv (le_refl _)
      have hlb := (hminR.2 (path_length g p))
        (reach_of_walk g start p hwalk hhead cp.1 hlast)
      have hbt : back_track fuel st3.prev cp.1 = some p := by
        rw [back_track, hgo []]
        rw [List.append_nil]
      refine ⟨f, fuel, p, ?_, hhead, ⟨cp.1, hlast, hend3⟩, hwalk, by omega⟩
      simp [a_star_search, heq, hbt]

theorem gEx_reach_lb : ∀ (v : ℕ) (c : ℕ), Reach gEx 1 v c →
    (v = 2 → 1 ≤ c) ∧ (v = 3 → 2 ≤ c) := by
  intro v c hr
  induction hr with
  | refl =>
    constructor
    · intro hh
      omega
    · intro hh
      omega
  | @step u c2 v2 hsub hedge ih =>
    have hdist : ∀ a b2 : ℕ, gEx.dist a b2 = 1 := fun a b2 => rfl
    by_cases hu1 : u = 1
    · subst hu1
      simp only [gEx] at hedge
      norm_num at hedge
      subst hedge
      rw [hdist]
      constructor
      · intro _
        omega
      · intro hh
        omega
    · by_cases hu2 : u = 2
      · subst hu2
        simp only [gEx] at hedge
        norm_num at hedge
        subst hedge
        rw [hdist]
        have h1 := ih.1 rfl
        constructor
        · intro hh
          omega
        · intro _
          omega
      · simp only [gEx] at hedge
        rw [if_neg hu1, if_neg hu2] at hedge
        exact absurd hedge (List.not_mem_nil v2)

theorem c4_witness :
    ((1 : ℕ) ∈ ({1, 2, 3} : Finset ℕ) ∧
      (∀ v ∈ ({1, 2, 3} : Finset ℕ), ∀ w ∈ gEx.out_edges v,
        w ∈ ({1, 2, 3} : Finset ℕ)) ∧
      dijkstraSpec gEx 1 (fun n => n == 3) (some 2)) ∧
    (∃ f b p, a_star_search gEx 1 (fun n => n == 3) (fun _ => 0) f b =
        some (some p) ∧
      p.head? = some 1 ∧
      (∃ e, p.getLast? = some e ∧ (e == 3) = true) ∧
      IsWalk gEx p ∧ path_length gEx p = 2) := by
  have e12 : (2 : ℕ) ∈ gEx.out_edges 1 := by decide
  have e23 : (3 : ℕ) ∈ gEx.out_edges 2 := by decide
  have hd : dijkstraSpec gEx 1 (fun n => n == 3) (some 2) := by
    refine ⟨⟨3, rfl, Reach.step (Reach.step Reach.refl e12) e23⟩, ?_⟩
    intro v c2 hv hr
    have hv2 : (v == 3) = true := hv
    have hv3 : v = 3 := by simpa using hv2
    exact (gEx_reach_lb v c2 hr).2 hv3
  exact ⟨⟨by decide, by decide, hd⟩,
    (c4_zero_heuristic_is_dijkstra gEx 1 (fun n => n == 3) {1, 2, 3}
      (by decide) (by decide)).2 2 hd⟩

theorem c9_witness :
    (∀ fuel, aLoop gEx (fun n => n == 3) (fun _ => 0) fuel (aInit 1 (fun _ => 0)) ≠
      some AOut.expectFail) ∧
    (∀ n, QCov (aIter gEx (fun n => n == 3) (fun _ => 0) n (aInit 1 (fun _ => 0)))) :=
  c9_expect_never_fails gEx 1 (fun n => n == 3) (fun _ => 0)

theorem back_track_nil (b : Nat) (x : N) : back_track b [] x = some [x] := by
  cases b <;> rfl

theorem backTrackGo_bugPrev (f : ℕ) :
    ∀ acc, backTrackGo bugPrev f 1 acc = none ∧ backTrackGo bugPrev f 2 acc = none := by
  induction f with
  | zero => intro acc; exact ⟨rfl, rfl⟩
  | succ f ih =>
    intro acc
    exact ⟨(ih (1 :: acc)).2, (ih (2 :: acc)).1⟩

theorem bfsLoop_gBug_found (k : ℕ) :
    bfsLoop gBug 3 (k + 4) [1] [] = some (BfsOut.found bugPrev 3) := rfl

theorem back_track_bugPrev_none (fuel : ℕ) : back_track fuel bugPrev 3 = none := by
  cases fuel with
  | zero => rfl
  | succ f => exact (backTrackGo_bugPrev f [3]).2

/-- C1: the claim is FALSE of the code.  On the graph 1 → 2, 2 → {1, 3} with
start 1 and goal 3, `breadth_first_search` re-discovers the start node 1 from
node 2 and records `prev[1] = 2` while `prev[2] = 1`, so at the moment the goal
is popped the predecessor map contains the cycle 1 → 2 → 1: node 1 is an
ancestor of itself. -/
theorem c1_bfs_predecessor_map_has_cycle :
    bfsLoop gBug 3 4 [1] [] = some (BfsOut.found bugPrev 3) ∧
    alookup bugPrev 1 = some 2 ∧ alookup bugPrev 2 = some 1 :=
  ⟨rfl, rfl, rfl⟩

/-- C2: the claim is FALSE of the code.  On the graph 1 → 2, 2 → {1, 3} with
start 1 and goal 3, `breadth_first_search` finds the goal and invokes
`back_track` on the predecessor map it built, but the backward walk cycles
between nodes 1 and 2 forever: no amount of fuel makes it return. -/
theorem c2_back_track_never_terminates :
    bfsLoop gBug 3 4 [1] [] = some (BfsOut.found bugPrev 3) ∧
    ∀ fuel, back_track fuel bugPrev 3 = none := by
  exact ⟨rfl, back_track_bugPrev_none⟩

/-- C3: the claim is FALSE of the code.  On the graph 1 → 2, 2 → {1, 3} the
goal 3 is reachable from the start 1 (by the two-edge walk 1, 2, 3), yet
`breadth_first_search` never returns at all — for every loop fuel and every
`back_track` fuel the fuelled run is still unfinished, because the loop reaches
the goal and then `back_track` hangs on the cyclic predecessor map. -/
theorem c3_bfs_hangs_on_reachable_goal :
    Reach gBug 1 3 2 ∧
    ∀ fuel btFuel, breadth_first_search gBug 1 3 fuel btFuel = none := by
  constructor
  · have e1 : (2 : ℕ) ∈ gBug.out_edges 1 := by decide
    have e2 : (3 : ℕ) ∈ gBug.out_edges 2 := by decide
    exact Reach.step (Reach.step Reach.refl e1) e2
  · intro fuel btFuel
    obtain _ | _ | _ | _ | k := fuel
    · rfl
    · rfl
    · rfl
    · rfl
    · show (match bfsLoop gBug 3 (k + 4) [1] [] with
        | none => none
        | some BfsOut.notFound => some none
        | some (BfsOut.found prev e) => (back_track btFuel prev e).map some) = none
      rw [bfsLoop_gBug_found k]
      simp [back_track_bugPrev_none btFuel]

/-- C7: for every graph, `breadth_first_search` with `start = end` returns the
single-node path `[start]` (for an arbitrary `out_edges`, so no exploration can
have influenced the result), `a_star_search` with `is_goal start` true likewise,
and `path_length` of that single-node path is zero. -/
theorem c7_start_is_goal {N D D2 : Type} [DecidableEq N] [Zero D] [Add D]
    [LinearOrder D2] [Add D2] [Zero D2]
    (g : VGraph N D) (g2 : VGraph N D2) (s : N) (isEnd : N → Bool) (h : N → D2)
    (f b : ℕ) (hf : 1 ≤ f) (hgoal : isEnd s = true) :
    breadth_first_search g s s f b = some (some [s]) ∧
    a_star_search g2 s isEnd h f b = some (some [s]) ∧
    path_length g [s] = 0 := by
  obtain ⟨f, rfl⟩ : ∃ f2, f = f2 + 1 := ⟨f - 1, by omega⟩
  refine ⟨?_, ?_, rfl⟩
  · have hloop : bfsLoop g s (f + 1) [s] [] = some (BfsOut.found [] s) := by
      simp [bfsLoop]
    simp [breadth_first_search, hloop, back_track_nil]
  · have hstep : aStep g2 isEnd h (aInit s h) = StepRes.halt (AOut.found [] s) := by
      simp [aStep, aInit, push_increase, alookup, qPop, qBest, hgoal]
    have hloop : aLoop g2 isEnd h (f + 1) (aInit s h) = some (AOut.found [] s) := by
      simp [aLoop, hstep]
    simp [a_star_search, hloop, back_track_nil]

theorem c7_witness :
    ((1 : ℕ) ≤ 1 ∧ (fun n : ℕ => n == 1) 1 = true) ∧
    (breadth_first_search gEx 1 1 1 0 = some (some [1]) ∧
     a_star_search gEx 1 (fun n => n == 1) (fun _ => 0) 1 0 = some (some [1]) ∧
     path_length gEx [1] = 0) :=
  ⟨⟨le_refl 1, rfl⟩, c7_start_is_goal gEx gEx 1 _ _ 1 0 (le_refl 1) rfl⟩

/-- C8: `path_length g p` equals the sum of `dist` over the consecutive pairs of
`p` (paired by zipping `p` with its tail), starting from the zero distance; a
path of zero or one nodes yields the zero distance. -/
theorem c8_path_length_is_sum {N D : Type} [DecidableEq N] [AddMonoid D]
    (g : VGraph N D) :
    (∀ p : List N,
      path_length g p = ((p.zip p.tail).map (fun q => g.dist q.1 q.2)).sum) ∧
    path_length g ([] : List N) = 0 ∧ (∀ a : N, path_length g [a] = 0) := by
  refine ⟨fun p => ?_, rfl, fun a => rfl⟩
  rw [path_length, windows2_eq_zip, foldl_add_eq_sum]

theorem bfsLoop_ignores_dist {N D1 D2 : Type} [DecidableEq N]
    (g1 : VGraph N D1) (g2 : VGraph N D2) (hout : g1.out_edges = g2.out_edges)
    (goal : N) :
    ∀ (f : ℕ) (q : List N) (pr : List (N × N)),
      bfsLoop g1 goal f q pr = bfsLoop g2 goal f q pr := by
  intro f
  induction f with
  | zero => intro q pr; rfl
  | succ f ih =>
    intro q pr
    cases q with
    | nil => rfl
    | cons cur rest =>
      simp only [bfsLoop]
      by_cases hcur : cur = goal
      · simp [hcur]
      · simp only [if_neg hcur]
        rw [hout]
        exact ih _ _

/-- C10: the result of `breadth_first_search` depends only on the graph's
`out_edges` function, never on `dist`: two graphs with identical successor
functions (even over different distance types) give identical results for every
start, end and fuel. -/
theorem c10_bfs_independent_of_dist {N D1 D2 : Type} [DecidableEq N]
    (g1 : VGraph N D1) (g2 : VGraph N D2) (hout : g1.out_edges = g2.out_edges)
    (s e : N) (f b : ℕ) :
    breadth_first_search g1 s e f b = breadth_first_search g2 s e f b := by
  simp only [breadth_first_search]
  rw [bfsLoop_ignores_dist g1 g2 hout]

theorem c10_witness :
    gDistOne.out_edges = gDistSeven.out_edges ∧
    breadth_first_search gDistOne 1 3 5 5 = breadth_first_search gDistSeven 1 3 5 5 :=
  ⟨rfl, c10_bfs_independent_of_dist gDistOne gDistSeven rfl 1 3 5 5⟩

end Vg
